import Mathlib

/-!
# Instantiation-graph engine: shallow embedding and verification

This file embeds the instantiation-graph core of the axiom-profiler
repository and settles the frozen claims about it.

Two generations of the engine coexist in the sources:

* `Old`: the module `smt-log-parser/src/parsers/z3/inst_graph.rs` (present in
  full): raw graph construction from the fact store's dependency list,
  visibility flags, `retain_nodes`, `keep_n_most_costly`, `reset`, and the
  cost-rank order computed at build time.
* `New`: the module `smt-log-parser/src/parsers/z3/graph/visible.rs`
  (present in full) — the visible-graph materializer `to_visible` with
  indirect-edge reconnection — together with the filter dispatch and the
  disabler classification of `axiom-profiler-GUI/src/results/filters.rs`.
  The supporting `raw.rs`/`mod.rs` (node flags, `set_visibility_when`,
  per-component transitive closures) are not among the provided sources;
  the few operations taken from them are modelled from the spec and marked
  as such in their doc comments.

Machine floats (`f32` costs) are modelled as rationals; the comparator in
the source only uses `<` and `==` on costs, which agree with the rational
order on all non-NaN values.
-/

namespace AxiomProfiler

/-! ## Generic bounded closure over an edge list

Models the precomputed transitive-closure structures (`reach_fwd` /
`reach_bwd` in the missing `raw.rs`, used by `reconnect`): iterating a
one-step successor map. Iterating `n` times from a start set reaches
every node connected by a chain of at most `n` edges; with `n` the node
count this is the full (reflexive) reachable set.
-/

/-- One forward step: keep the set and add the target of every edge whose
source is in the set. -/
def stepFwd (edges : List (Nat × Nat)) (s : List Nat) : List Nat :=
  s ++ (edges.filter (fun e => s.contains e.1)).map (fun e => e.2)

/-- One backward step: keep the set and add the source of every edge whose
target is in the set. -/
def stepBwd (edges : List (Nat × Nat)) (s : List Nat) : List Nat :=
  s ++ (edges.filter (fun e => s.contains e.2)).map (fun e => e.1)

/-- Iterate a step function `k` times. -/
def iterStep (step : List Nat → List Nat) : Nat → List Nat → List Nat
  | 0, s => s
  | k + 1, s => iterStep step k (step s)

namespace Old

/-- Modelled from the spec: the kind of a raw-graph node per the spec's
data model (section 3: instantiations, e-nodes, given and transitively
derived equalities), carried by the node type of the later engine version
(`InstNode`, not among the provided sources) and tested by the equality
filters of `axiom-profiler-GUI/src/results/filters/graph_filters.rs`. -/
inductive NodeKind where
  | ENode
  | GivenEquality
  | TransEquality
  | Instantiation
  deriving Repr, DecidableEq, Inhabited

/-- Predicate selecting the equality-node kinds (given or transitively
derived equality). -/
def NodeKind.isEqualityNode : NodeKind → Bool
  | .GivenEquality | .TransEquality => true
  | _ => false

/-- Node payload of the raw graph, `NodeData` in `inst_graph.rs`.

The field `min_depth` is modelled from the spec: the forward-depth
metadata (minimum distance from the graph roots) carried by the node type
of the later engine version (`InstNode`, not among the provided sources)
and used by the `MaxDepth` filter of
`axiom-profiler-GUI/src/results/filters/graph_filters.rs`.  The field
`kind` is likewise modelled from the spec (see `NodeKind`); the provided
construction `compute_instantiation_graph` creates instantiation nodes
only, which the field default records. -/
structure NodeData where
  line_nr : Nat
  is_theory_inst : Bool
  cost : Rat
  inst_idx : Option Nat
  quant_idx : Nat
  visible : Bool
  child_count : Nat
  parent_count : Nat
  orig_graph_idx : Nat
  cost_rank : Nat
  min_depth : Nat
  kind : NodeKind := .Instantiation
  deriving Repr, DecidableEq, Inhabited

/-- The raw instantiation graph, `InstGraph` in `inst_graph.rs`.
Nodes are identified by their position in `nodes` (the petgraph node
index); `edges` lists directed edges between positions.  `visible_nodes`
and `visible_edges` together model the derived `visible_graph` field. -/
structure InstGraph where
  nodes : List NodeData
  edges : List (Nat × Nat)
  visible_nodes : List NodeData
  visible_edges : List (Nat × Nat)
  cost_ranked_node_indices : List Nat
  deriving Repr, DecidableEq, Inhabited

/-- Node payload at index `i` (out-of-range gives the default payload,
which is not visible). -/
def nodeAt (g : InstGraph) (i : Nat) : NodeData :=
  g.nodes.getD i default

/-- The visibility flag of node `i`. -/
def visibleAt (g : InstGraph) (i : Nat) : Bool :=
  (nodeAt g i).visible

/-- Source `InstGraph::retain_nodes`: clear the `visible` flag of every node that
fails the predicate; all other state is untouched. -/
def InstGraph.retain_nodes (g : InstGraph) (p : NodeData → Bool) : InstGraph :=
  { g with nodes := g.nodes.map (fun nd => if p nd then nd else { nd with visible := false }) }

/-- Source `InstGraph::keep_n_most_costly`: collect the currently visible nodes,
take the first `n` of them in cost-rank order, and retain exactly the
visible nodes whose cost rank is at most the rank of the last one taken.
The source unwraps the `Option` returned by `.take(n).last()`; `none`
models that panic (it fires when no visible node exists or `n = 0`). -/
def InstGraph.keep_n_most_costly (g : InstGraph) (n : Nat) : Option InstGraph :=
  let visible_nodes := (List.range g.nodes.length).filter (fun i => visibleAt g i)
  let ranked_visible := g.cost_ranked_node_indices.filter (fun i => visible_nodes.contains i)
  match (ranked_visible.take n).getLast? with
  | none => none
  | some nth =>
    let r := (nodeAt g nth).cost_rank
    some (g.retain_nodes (fun nd => nd.visible && decide (nd.cost_rank ≤ r)))

/-- Source `InstGraph::reset`: set every `visible` flag and replace the visible
graph by a copy of the raw graph. -/
def InstGraph.reset (g : InstGraph) : InstGraph :=
  let nodes := g.nodes.map (fun nd => { nd with visible := true })
  { g with nodes := nodes, visible_nodes := nodes, visible_edges := g.edges }

/-- Modelled from the spec: the analysis session owning the raw graph,
with the `generation` counter of the derived visible-graph snapshot
(`stats.generation` lives in the `raw.rs` module that is not among the
provided sources); the counter is incremented on each rebuild. -/
structure Session where
  graph : InstGraph
  generation : Nat
  deriving Repr, DecidableEq

/-- Session-level `reset`: reset the raw graph (all nodes visible,
visible graph rebuilt as a full copy) and bump the generation counter. -/
def Session.reset (s : Session) : Session :=
  { graph := s.graph.reset, generation := s.generation + 1 }

/-! ### Raw graph construction (`InstGraph::compute_instantiation_graph`) -/

/-- A dependency entry of the fact store.  Modelled from the spec (the
`Dependency` struct is declared in `z3parser.rs`, not among the provided
sources): `from_` is an origin line number or `0` for "no predecessor",
`to` an optional target line number, plus the quantifier reference, the
theory-discovery flag and the target instantiation index `to_iidx` as
read by `inst_graph.rs`. -/
structure Dependency where
  from_ : Nat
  to_ : Option Nat
  to_iidx : Option Nat
  quant : Nat
  quant_discovered : Bool
  deriving Repr, DecidableEq

/-- The slice of an `Instantiation` record used by graph construction:
its cost. -/
structure InstFact where
  cost : Rat
  deriving Repr, DecidableEq

/-- The slice of the parser's fact store consumed by graph construction. -/
structure Z3Parser where
  dependencies : List Dependency
  instantiations : List InstFact
  deriving Repr, DecidableEq

/-- Source `InstGraph::add_node`: push a node unless one with the same line
number exists (the `node_of_line_nr` map), storing its own index in
`orig_graph_idx`. -/
def add_node (nodes : List NodeData) (nd : NodeData) : List NodeData :=
  if nodes.any (fun x => x.line_nr == nd.line_nr) then nodes
  else nodes ++ [{ nd with orig_graph_idx := nodes.length }]

/-- Index of the node with a given line number (the `node_of_line_nr`
lookup). -/
def line_idx (nodes : List NodeData) (l : Nat) : Option Nat :=
  nodes.findIdx? (fun nd => nd.line_nr == l)

/-- Source `InstGraph::add_edge`: add an edge only when both line numbers have a
corresponding node; otherwise do nothing. -/
def add_edge (nodes : List NodeData) (edges : List (Nat × Nat)) (f t : Nat) : List (Nat × Nat) :=
  match line_idx nodes f, line_idx nodes t with
  | some a, some b => edges ++ [(a, b)]
  | _, _ => edges

/-- First pass of `compute_instantiation_graph`: for every dependency with
a defined target, look up the cost of the target instantiation
(`dep.to_iidx.unwrap()` followed by `instantiations.get(..).unwrap()` in
the source — `none` models those panics) and add a node.  A dependency
with an undefined target adds nothing. -/
def computeNodes (p : Z3Parser) : Option (List NodeData) :=
  p.dependencies.foldlM (fun nodes dep =>
    match dep.to_ with
    | none => some nodes
    | some l =>
      match dep.to_iidx.bind (fun k => p.instantiations.get? k) with
      | none => none
      | some inst =>
        some (add_node nodes
          { line_nr := l, is_theory_inst := dep.quant_discovered, cost := inst.cost,
            inst_idx := dep.to_iidx, quant_idx := dep.quant, visible := true,
            child_count := 0, parent_count := 0, orig_graph_idx := 0,
            cost_rank := 0, min_depth := 0 })) []

/-- Second pass: for every dependency with a defined target and a source
line number greater than `0` (the "no predecessor" sentinel), add an
edge. -/
def computeEdges (p : Z3Parser) (nodes : List NodeData) : List (Nat × Nat) :=
  p.dependencies.foldl (fun edges dep =>
    match dep.to_ with
    | none => edges
    | some l => if 0 < dep.from_ then add_edge nodes edges dep.from_ l else edges) []

/-- Third pass: store each node's child and parent count (the number of
outgoing / incoming edges, multi-edges counted per edge as by petgraph's
`neighbors_directed(..).count()`). -/
def withCounts (nodes : List NodeData) (edges : List (Nat × Nat)) : List NodeData :=
  nodes.enum.map (fun pr =>
    { pr.2 with
      child_count := (edges.filter (fun e => e.1 == pr.1)).length,
      parent_count := (edges.filter (fun e => e.2 == pr.1)).length })

/-- Modelled from the spec: the forward-depth metadata (minimum hop count
from any root) stored on nodes and consumed by the `MaxDepth` filter; the
computing code is part of the engine version not among the provided
sources.  Breadth-first layering: roots get depth `0`, and an unassigned
node whose parent is assigned after `k` rounds gets depth `k`. -/
def fwdDepthAux (edges : List (Nat × Nat)) : Nat → Nat → List (Option Nat) → List (Option Nat)
  | 0, _, d => d
  | fuel + 1, k, d =>
    let d' := d.enum.map (fun pr =>
      match pr.2 with
      | some v => some v
      | none =>
        if edges.any (fun e => e.2 == pr.1 && (d.getD e.1 none).isSome) then some k
        else none)
    fwdDepthAux edges fuel (k + 1) d'

/-- Forward depth of every node (see `fwdDepthAux`); unreachable nodes
default to `0`. -/
def fwdDepths (n : Nat) (edges : List (Nat × Nat)) : List Nat :=
  let init := (List.range n).map (fun i =>
    if edges.any (fun e => e.2 == i) then (none : Option Nat) else some 0)
  (fwdDepthAux edges n 1 init).map (fun o => o.getD 0)

/-- Store the forward depths on the nodes. -/
def withDepths (nodes : List NodeData) (edges : List (Nat × Nat)) : List NodeData :=
  let ds := fwdDepths nodes.length edges
  nodes.enum.map (fun pr => { pr.2 with min_depth := ds.getD pr.1 0 })

/-- The cost order of `compute_instantiation_graph`, as the complement of
its comparator's `Greater` case: node `a` sorts no later than node `b`
iff `a` has strictly larger cost, or equal cost and a line number at most
`b`'s.  (The comparator returns `Greater` iff `cost_a < cost_b`, or
`cost_a = cost_b` and `line_nr_b < line_nr_a`.) -/
def costLeData (a b : NodeData) : Prop :=
  b.cost < a.cost ∨ (a.cost = b.cost ∧ a.line_nr ≤ b.line_nr)

instance : DecidableRel costLeData := fun a b => by
  unfold costLeData
  infer_instance

/-- The node indices sorted by the cost order (`sort_unstable_by` with the
comparator above; the comparator is a strict total order whenever line
numbers are pairwise distinct — guaranteed by `add_node` deduplication —
so every correct sort produces the same list, here realized by insertion
sort). -/
def sortIndices (nodes : List NodeData) : List Nat :=
  List.insertionSort
    (fun i j => costLeData (nodes.getD i default) (nodes.getD j default))
    (List.range nodes.length)

/-- The rank-assignment loop: for each position `k` of the sorted index
list, store `k` as the `cost_rank` of the node at that index. -/
def assignRanks (nodes : List NodeData) : List Nat → Nat → List NodeData
  | [], _ => nodes
  | r :: rs, k =>
    assignRanks (nodes.set r { nodes.getD r default with cost_rank := k }) rs (k + 1)

/-- Source `InstGraph::compute_instantiation_graph`: nodes, then edges, then
child/parent counts, depths and cost ranks; the visible graph starts as a
full copy.  `none` models the panics of the cost lookup (see
`computeNodes`). -/
def computeInstantiationGraph (p : Z3Parser) : Option InstGraph :=
  match computeNodes p with
  | none => none
  | some nodes0 =>
    let edges := computeEdges p nodes0
    let nodes1 := withDepths (withCounts nodes0 edges) edges
    let ranked := sortIndices nodes1
    let nodes2 := assignRanks nodes1 ranked 0
    some { nodes := nodes2, edges := edges, visible_nodes := nodes2,
           visible_edges := edges, cost_ranked_node_indices := ranked }

/-! ### Filters (`axiom-profiler-GUI/src/results/filters/graph_filters.rs`) -/

/-- Reachable set (the node together with its descendants), used by the
subtree filters; `stepBwd` instead gives ancestors. -/
def reachSet (g : InstGraph) (root : Nat) : List Nat :=
  iterStep (stepFwd g.edges) g.nodes.length [root]

/-- Ancestor set (the node together with its ancestors). -/
def reachSetBwd (g : InstGraph) (root : Nat) : List Nat :=
  iterStep (stepBwd g.edges) g.nodes.length [root]

/-- Modelled from the spec: `visit_descendants` — compute the descendant
closure of `root`; keep only those nodes if `retain` is set, otherwise
hide exactly those nodes.  (The implementing graph method belongs to the
engine version not among the provided sources.) -/
def visit_descendants (g : InstGraph) (root : Nat) (retain : Bool) : InstGraph :=
  let ds := reachSet g root
  if retain then g.retain_nodes (fun nd => ds.contains nd.orig_graph_idx)
  else g.retain_nodes (fun nd => !(ds.contains nd.orig_graph_idx))

/-- Modelled from the spec: `visit_ancestors` — the same over the
reversed graph. -/
def visit_ancestors (g : InstGraph) (root : Nat) (retain : Bool) : InstGraph :=
  let ds := reachSetBwd g root
  if retain then g.retain_nodes (fun nd => ds.contains nd.orig_graph_idx)
  else g.retain_nodes (fun nd => !(ds.contains nd.orig_graph_idx))

/-- Modelled from the spec: the optional quantifier reference tested by
the quantifier filters (`node.mkind.quant_idx()` on the later engine's
node type, not among the provided sources; the spec reads: `q` may be
"none", meaning discovered-without-quantifier).  A theory-discovered
instantiation carries no quantifier reference; any other carries its
`quant_idx`. -/
def quantOf (nd : NodeData) : Option Nat :=
  if nd.is_theory_inst then none else some nd.quant_idx

/-- Branching order used by `MaxBranching`: node `i` sorts no later than
node `j` iff `i` has strictly more children, or equally many and an
origin index at most `j`'s (ascending-index tie-break, per the spec's
deterministic tie-break policy). -/
def branchLe (g : InstGraph) (i j : Nat) : Prop :=
  (nodeAt g j).child_count < (nodeAt g i).child_count ∨
  ((nodeAt g i).child_count = (nodeAt g j).child_count ∧ i ≤ j)

instance (g : InstGraph) : DecidableRel (branchLe g) := fun i j => by
  unfold branchLe
  infer_instance

/-- Modelled from the spec: `keep_n_most_branching` — keep only the `n`
nodes with the most children among the currently visible nodes
(`MaxBranching(n)` of the spec's filter table; the implementing graph
method is not among the provided sources). -/
def InstGraph.keep_n_most_branching (g : InstGraph) (n : Nat) : InstGraph :=
  let vis := (List.range g.nodes.length).filter (fun i => visibleAt g i)
  let keep := (List.insertionSort (branchLe g) vis).take n
  g.retain_nodes (fun nd => keep.contains nd.orig_graph_idx)

/-- Modelled from the spec: the longest path of the causal graph starting
at `u`, as a list of node indices (first-found tie-break in edge-list
order; the spec leaves the tie-break open and asks implementers to fix a
deterministic one).  `fuel` bounds the explored path length; the raw
graph is acyclic, so fuel `nodes.length` reaches every simple path. -/
def longestFrom (edges : List (Nat × Nat)) : Nat → Nat → List Nat
  | 0, u => [u]
  | fuel + 1, u =>
    let nexts := (edges.filter (fun e => e.1 == u)).map (fun e => e.2)
    u :: nexts.foldl (fun best v =>
      let c := longestFrom edges fuel v
      if best.length < c.length then c else best) []

/-- Modelled from the spec: `show_longest_path_through` — compute the
longest causal path passing through `node` (the longest path into `node`
over the reversed edges, followed by the longest path out of it) and hide
all nodes not on it; the implementing graph method is not among the
provided sources.  The auxiliary `FilterOutput::LongestPath` returned to
the caller is the path itself and is irrelevant to visibility. -/
def InstGraph.show_longest_path_through (g : InstGraph) (node : Nat) : InstGraph :=
  let fwd := longestFrom g.edges g.nodes.length node
  let bwd := longestFrom (g.edges.map (fun e => (e.2, e.1))) g.nodes.length node
  let path := bwd.reverse ++ fwd.tail
  g.retain_nodes (fun nd => path.contains nd.orig_graph_idx)

/-- Source description "Hiding all equality nodes" (`IgnoreEqualityNodes`
in `graph_filters.rs`): clear the visibility of every equality node; the
implementing graph method `hide_equality_nodes` is not among the provided
sources, the node kinds are modelled from the spec (see `NodeKind`). -/
def InstGraph.hide_equality_nodes (g : InstGraph) : InstGraph :=
  g.retain_nodes (fun nd => ! nd.kind.isEqualityNode)

/-- Source description "Hiding all equality nodes without visible
ancestor or descendant that is an instantiation node"
(`PruneEqualityNodes` in `graph_filters.rs`); the implementing graph
method `prune_equality_nodes` is not among the provided sources. -/
def InstGraph.prune_equality_nodes (g : InstGraph) : InstGraph :=
  g.retain_nodes (fun nd =>
    ! nd.kind.isEqualityNode ||
    ((reachSetBwd g nd.orig_graph_idx ++ reachSet g nd.orig_graph_idx).any
      (fun j => visibleAt g j && (nodeAt g j).kind == .Instantiation)))

/-- Source description "Hiding all equality nodes with exactly one child
and one parent" (`IgnoreChainEqualityNodes` in `graph_filters.rs`); the
implementing graph method `ignore_chain_equality_nodes` is not among the
provided sources. -/
def InstGraph.ignore_chain_equality_nodes (g : InstGraph) : InstGraph :=
  g.retain_nodes (fun nd =>
    !(nd.kind.isEqualityNode && nd.child_count == 1 && nd.parent_count == 1))

/-- Source filter enum of `graph_filters.rs` — all sixteen variants
(`SelectNthMatchingLoop` is commented out of the source enum).  Node
indices, quantifier indices and line counts are `Nat`; the
`ShowNeighbours` direction is a Boolean. -/
inductive Filter where
  | MaxNodeIdx (n : Nat)
  | MinNodeIdx (n : Nat)
  | IgnoreTheorySolving
  | IgnoreQuantifier (q : Option Nat)
  | IgnoreAllButQuantifier (q : Option Nat)
  | MaxInsts (n : Nat)
  | MaxBranching (n : Nat)
  | MaxDepth (d : Nat)
  | ShowNeighbours (node : Nat) (incoming : Bool)
  | VisitSubTreeWithRoot (node : Nat) (retain : Bool)
  | VisitSourceTree (node : Nat) (retain : Bool)
  | ShowLongestPath (node : Nat)
  | ShowMatchingLoopSubgraph
  | IgnoreEqualityNodes
  | PruneEqualityNodes
  | IgnoreChainEqualityNodes
  deriving Repr, DecidableEq

/-- Source `Filter::apply` of `graph_filters.rs`.  `MaxNodeIdx`/`MinNodeIdx`
retain nodes by origin index, `IgnoreTheorySolving` drops
theory-discovered instantiations, the quantifier filters retain by the
node's optional quantifier reference (see `quantOf`), `MaxInsts`
dispatches to `keep_n_most_costly` (whose panic is modelled by `none`),
`MaxBranching` to `keep_n_most_branching`, `MaxDepth` retains by forward
depth, the subtree filters dispatch to `visit_descendants` and
`visit_ancestors`, `ShowLongestPath` to `show_longest_path_through` and
the equality filters to the three equality-node methods.
`ShowNeighbours` dispatches to `InstGraph::show_neighbours`, whose entire
body is commented out in the provided `inst_graph.rs` — it is a no-op.
`ShowMatchingLoopSubgraph` dispatches to `show_matching_loop_subgraph`,
which is not among the provided sources and which the spec's filter table
does not describe; the successor engine's dispatch of the same variant
(the provided `results/filters.rs`) comments the call out and performs no
operation, which this model follows. -/
def Filter.apply (f : Filter) (g : InstGraph) : Option InstGraph :=
  match f with
  | .MaxNodeIdx n => some (g.retain_nodes (fun nd => decide (nd.orig_graph_idx ≤ n)))
  | .MinNodeIdx n => some (g.retain_nodes (fun nd => decide (n ≤ nd.orig_graph_idx)))
  | .IgnoreTheorySolving => some (g.retain_nodes (fun nd => !nd.is_theory_inst))
  | .IgnoreQuantifier q => some (g.retain_nodes (fun nd => !(quantOf nd == q)))
  | .IgnoreAllButQuantifier q => some (g.retain_nodes (fun nd => quantOf nd == q))
  | .MaxInsts n => g.keep_n_most_costly n
  | .MaxBranching n => some (g.keep_n_most_branching n)
  | .MaxDepth d => some (g.retain_nodes (fun nd => decide (nd.min_depth ≤ d)))
  | .ShowNeighbours _ _ => some g
  | .VisitSubTreeWithRoot r ret => some (visit_descendants g r ret)
  | .VisitSourceTree r ret => some (visit_ancestors g r ret)
  | .ShowLongestPath r => some (g.show_longest_path_through r)
  | .ShowMatchingLoopSubgraph => some g
  | .IgnoreEqualityNodes => some g.hide_equality_nodes
  | .PruneEqualityNodes => some g.prune_equality_nodes
  | .IgnoreChainEqualityNodes => some g.ignore_chain_equality_nodes

/-- Apply an ordered filter chain left to right; a panic (`none`) aborts
the chain. -/
def applyChain : List Filter → InstGraph → Option InstGraph
  | [], g => some g
  | f :: fs, g =>
    match f.apply g with
    | none => none
    | some g' => applyChain fs g'

/-- The filter variants named by the monotonic-narrowing property:
`MaxNodeIdx`, `MinNodeIdx`, `IgnoreTheorySolving`, `MaxInsts`,
`MaxDepth`. -/
def Filter.narrowing : Filter → Bool
  | .MaxNodeIdx _ | .MinNodeIdx _ | .IgnoreTheorySolving | .MaxInsts _ | .MaxDepth _ => true
  | _ => false

/-- Well-formedness of a raw graph state, as established by construction:
the cost-ranked index list is a permutation of all node indices, sorted
by the cost order, each node's stored `cost_rank` is its position in that
list, and line numbers are pairwise distinct (the `add_node`
deduplication invariant, which makes the comparator a strict total
order). -/
def WF (g : InstGraph) : Prop :=
  g.cost_ranked_node_indices.Perm (List.range g.nodes.length) ∧
  (∀ k, k < g.cost_ranked_node_indices.length →
    (nodeAt g (g.cost_ranked_node_indices.getD k 0)).cost_rank = k) ∧
  (∀ i, i < g.nodes.length → ∀ j, j < g.nodes.length → i ≠ j →
    (nodeAt g i).line_nr ≠ (nodeAt g j).line_nr) ∧
  List.Pairwise (fun a b => costLeData (nodeAt g a) (nodeAt g b)) g.cost_ranked_node_indices

instance (g : InstGraph) : Decidable (WF g) := by
  unfold WF
  infer_instance

end Old

namespace New

/-- The kind of a raw-graph node (`NodeKind` in the missing `raw.rs`,
as matched on by `Disabler::disable` and `to_visible`; the payload
indices carried by each variant are irrelevant to the settled claims and
omitted). -/
inductive NodeKind where
  | ENode
  | GivenEquality
  | TransEquality
  | Instantiation
  deriving Repr, DecidableEq

/-- A raw-graph node: its kind and its hidden flag (`Node` in the missing
`raw.rs`; `visible()` is the negation of `hidden()`). -/
structure Node where
  kind : NodeKind
  hidden : Bool
  deriving Repr, DecidableEq

/-- Default node used for out-of-range lookups; it is hidden, so
out-of-range indices are never visible. -/
def defaultNode : Node :=
  { kind := .ENode, hidden := true }

/-- The raw instantiation graph consumed by `to_visible`: nodes are
identified by their position in `nodes` (the petgraph node index), edges
by their position in `edges`.  `generation` models `raw.stats.generation`
(the counter copied onto each visible snapshot).  Subgraph membership and
the per-subgraph transitive closures of the missing `raw.rs` are modelled
as one subgraph containing every node, with reachability computed over
the whole edge list. -/
structure RawGraph where
  nodes : List Node
  edges : List (Nat × Nat)
  generation : Nat
  deriving Repr, DecidableEq

/-- Node at index `i`. -/
def nodeAt (g : RawGraph) (i : Nat) : Node :=
  g.nodes.getD i defaultNode

/-- Source `Node::hidden()`. -/
def hiddenAt (g : RawGraph) (i : Nat) : Bool :=
  (nodeAt g i).hidden

/-- Source `Node::visible()`. -/
def visible (g : RawGraph) (i : Nat) : Bool :=
  !(nodeAt g i).hidden

/-- An edge together with its index in the edge list. -/
structure RawEdge where
  idx : Nat
  src : Nat
  tgt : Nat
  deriving Repr, DecidableEq

/-- All edges, paired with their indices. -/
def edgesIdx (g : RawGraph) : List RawEdge :=
  g.edges.enum.map (fun pr => { idx := pr.1, src := pr.2.1, tgt := pr.2.2 })

/-- The outgoing edges of `u`.  petgraph's `Graph::edges(u)` walks the
adjacency list most-recently-added first, hence the reversal; only the
multiset of produced edges matters to the claims below. -/
def edgesFrom (g : RawGraph) (u : Nat) : List RawEdge :=
  ((edgesIdx g).filter (fun e => e.src == u)).reverse

/-- Forward reachable set (reflexive) of a start set: the model of
`reach_fwd.reachable_from_many`.  Iterating `nodes.length` one-edge steps
covers every chain of at most that length, which includes a shortest
chain to every reachable node. -/
def reachFwd (g : RawGraph) (starts : List Nat) : List Nat :=
  iterStep (stepFwd g.edges) g.nodes.length starts

/-- Backward reachable set (reflexive) of a start set: the model of
`reach_bwd.reachable_from_many`. -/
def reachBwd (g : RawGraph) (starts : List Nat) : List Nat :=
  iterStep (stepBwd g.edges) g.nodes.length starts

/-- The `visible_reachable` closure of `reconnect`: the visible nodes
reachable (reflexively) from the hidden child `c`. -/
def visibleReachable (g : RawGraph) (c : Nat) : List Nat :=
  (reachFwd g [c]).filter (fun s => visible g s)

/-- The node filter of `reconnect`: a node may be walked iff it is in the
graph (models `subgraph.is_some_and`), not forward-reachable from any
visible node reachable from the hidden child, and able to reach one of
those visible nodes. -/
def reconnectFilter (g : RawGraph) (fwd bwd : List Nat) (m : Nat) : Bool :=
  decide (m < g.nodes.length) && !(fwd.contains m) && bwd.contains m

/-- The edges walkable from `u` under the node filter, as produced by
petgraph's `NodeFiltered::edges`: empty if `u` itself fails the filter,
otherwise the outgoing edges whose target passes the filter. -/
def filteredEdgesFrom (g : RawGraph) (fOk : Nat → Bool) (u : Nat) : List RawEdge :=
  if fOk u then (edgesFrom g u).filter (fun e => fOk e.tgt) else []

/-- The emissions of the `reconnect` walk at the node `e.tgt`
(`to_parent`): for every raw edge from `e.tgt` to a visible node `to`,
one indirect connection carrying the accumulated path extended by that
edge. -/
def walkEmits (g : RawGraph) (e : RawEdge) (path1 : List Nat) : List (List Nat × Nat) :=
  (edgesFrom g e.tgt).filterMap (fun f =>
    if visible g f.tgt then some (path1 ++ [f.idx], f.tgt) else none)

/-- The depth-first walk of `reconnect` (the explicit stack loop): push
the current edge on the path, emit an indirect connection for every
visible child of the current target, and recurse through every filtered
edge.  The source keeps no visited set, so the walk enumerates every
filtered path; the fuel bounds the recursion depth for Lean's
termination checker.  `reconnect` passes `nodes.length` as fuel: on an
acyclic raw graph (the documented invariant) every filtered path is
simple and therefore shorter than the fuel, so the bound is never hit
and the walk coincides with the source's unbounded loop. -/
def walk (g : RawGraph) (fOk : Nat → Bool) : Nat → RawEdge → List Nat → List (List Nat × Nat)
  | 0, e, path => walkEmits g e (path ++ [e.idx])
  | fuel + 1, e, path =>
    walkEmits g e (path ++ [e.idx]) ++
      ((filteredEdgesFrom g fOk e.tgt).map
        (fun f => walk g fOk fuel f (path ++ [e.idx]))).flatten

/-- The body of `reconnect` for one visible node `i_from` and one of its
outgoing edges: if the edge leads to a hidden child, compute the
reachability context, skip the child when no visible node is reachable
from it, and otherwise run the walk from that edge. -/
def reconnectFromEdge (g : RawGraph) (e : RawEdge) : List (List Nat × Nat) :=
  if hiddenAt g e.tgt then
    let vr := visibleReachable g e.tgt
    let fwd := reachFwd g vr
    if fwd.isEmpty then []
    else
      let bwd := reachBwd g vr
      walk g (reconnectFilter g fwd bwd) g.nodes.length e []
  else []

/-- A visible-graph edge payload: `Direct` carries the raw edge index,
`Indirect` the full path of raw edge indices traversed through the
hidden region. -/
inductive VisibleEdge where
  | Direct (e : Nat)
  | Indirect (path : List Nat)
  deriving Repr, DecidableEq

/-- A visible-graph node: the raw index it stands for and the counts of
its immediately hidden parents and children. -/
structure VisibleNode where
  idx : Nat
  hidden_parents : Nat
  hidden_children : Nat
  deriving Repr, DecidableEq

/-- Default for out-of-range visible-node lookups. -/
def defaultVisibleNode : VisibleNode :=
  { idx := 0, hidden_parents := 0, hidden_children := 0 }

/-- A visible-graph edge: endpoints are visible-graph node indices. -/
structure VEdge where
  src : Nat
  tgt : Nat
  w : VisibleEdge
  deriving Repr, DecidableEq

/-- The materialized visible graph (`VisibleInstGraph`). -/
structure VisibleGraph where
  nodes : List VisibleNode
  edges : List VEdge
  generation : Nat
  deriving Repr, DecidableEq

/-- The raw indices of the visible nodes, in raw order: the order in
which `to_visible` copies nodes, so position in this list is the
visible-graph node index. -/
def visList (g : RawGraph) : List Nat :=
  (List.range g.nodes.length).filter (fun i => visible g i)

/-- The visible-graph index of a raw node (the `reverse` map). -/
def vIdx (g : RawGraph) (i : Nat) : Nat :=
  (visList g).indexOf i

/-- Count of hidden direct parents of raw node `i` (per edge, as by
petgraph's `neighbors_directed`). -/
def hiddenParentsCount (g : RawGraph) (i : Nat) : Nat :=
  (g.edges.filter (fun e => e.2 == i && hiddenAt g e.1)).length

/-- Count of hidden direct children of raw node `i`. -/
def hiddenChildrenCount (g : RawGraph) (i : Nat) : Nat :=
  (g.edges.filter (fun e => e.1 == i && hiddenAt g e.2)).length

/-- Source `InstGraph::to_visible`: copy every visible node (with its hidden
neighbour counts), copy every edge between visible endpoints as a
`Direct` edge, then run `reconnect`, which appends an `Indirect` edge
`from → to` for every emission of the walk started at each edge from a
visible node to a hidden child. -/
def toVisible (g : RawGraph) : VisibleGraph :=
  let vis := visList g
  let vnodes := vis.map (fun i =>
    { idx := i, hidden_parents := hiddenParentsCount g i,
      hidden_children := hiddenChildrenCount g i })
  let direct := g.edges.enum.filterMap (fun pr =>
    if visible g pr.2.1 && visible g pr.2.2 then
      some { src := vIdx g pr.2.1, tgt := vIdx g pr.2.2, w := VisibleEdge.Direct pr.1 }
    else none)
  let indirect := (vis.map (fun a =>
    ((edgesFrom g a).map (fun e =>
      (reconnectFromEdge g e).map (fun pr =>
        { src := vIdx g a, tgt := vIdx g pr.2, w := VisibleEdge.Indirect pr.1 }))).flatten)).flatten
  { nodes := vnodes, edges := direct ++ indirect, generation := g.generation }

/-! ### Disablers (`axiom-profiler-GUI/src/results/filters.rs`) -/

/-- Number of parents of node `i` (incoming edges, counted per edge). -/
def parentsCount (g : RawGraph) (i : Nat) : Nat :=
  (g.edges.filter (fun e => e.2 == i)).length

/-- Number of children of node `i` (outgoing edges, counted per edge). -/
def childrenCount (g : RawGraph) (i : Nat) : Nat :=
  (g.edges.filter (fun e => e.1 == i)).length

/-- The disabler variants. -/
inductive Disabler where
  | Smart
  | ENodes
  | GivenEqualities
  | AllEqualities
  deriving Repr, DecidableEq

/-- Source `Disabler::disable`: whether the disabler marks node `i` disabled. -/
def Disabler.disable (d : Disabler) (g : RawGraph) (i : Nat) : Bool :=
  match d with
  | .ENodes => (nodeAt g i).kind == NodeKind.ENode
  | .GivenEqualities => (nodeAt g i).kind == NodeKind.GivenEquality
  | .AllEqualities =>
    (nodeAt g i).kind == NodeKind.GivenEquality ||
      (nodeAt g i).kind == NodeKind.TransEquality
  | .Smart =>
    match (nodeAt g i).kind with
    | .ENode =>
      childrenCount g i == 0 || (parentsCount g i == 1 && childrenCount g i == 1)
    | .GivenEquality =>
      childrenCount g i == 0 || (parentsCount g i == 1 && childrenCount g i == 1)
    | .TransEquality =>
      parentsCount g i == 0 || (parentsCount g i == 1 && childrenCount g i == 1)
    | .Instantiation => false

/-- Source `Disabler::apply` and its combination of several active disablers: a node
is disabled iff some active disabler disables it. -/
def disableMany (ds : List Disabler) (g : RawGraph) (i : Nat) : Bool :=
  ds.any (fun d => d.disable g i)

/-! ### Index filters (`axiom-profiler-GUI/src/results/filters.rs`) -/

/-- Modelled from the spec: `RawInstGraph::set_visibility_when` (declared
in the missing `raw.rs`) sets the hidden flag to the given value on
exactly the nodes satisfying the predicate, leaving every other node's
flag unchanged. -/
def set_visibility_when (g : RawGraph) (hidden : Bool) (p : Nat → Node → Bool) : RawGraph :=
  { g with
    nodes := g.nodes.enum.map (fun pr =>
      if p pr.1 pr.2 then { pr.2 with hidden := hidden } else pr.2) }

/-- Source `Filter::MaxNodeIdx(n)`: hide the nodes whose index is at least
`n`. -/
def applyMaxNodeIdx (n : Nat) (g : RawGraph) : RawGraph :=
  set_visibility_when g true (fun i _ => decide (n ≤ i))

/-- Source `Filter::MinNodeIdx(n)`: hide the nodes whose index is below `n`. -/
def applyMinNodeIdx (n : Nat) (g : RawGraph) : RawGraph :=
  set_visibility_when g true (fun i _ => decide (i < n))

end New

namespace Old

/-- Equality of all `NodeData` fields except the `visible` flag. -/
def sameExceptVisible (a b : NodeData) : Prop :=
  a.line_nr = b.line_nr ∧ a.is_theory_inst = b.is_theory_inst ∧ a.cost = b.cost ∧
  a.inst_idx = b.inst_idx ∧ a.quant_idx = b.quant_idx ∧ a.child_count = b.child_count ∧
  a.parent_count = b.parent_count ∧ a.orig_graph_idx = b.orig_graph_idx ∧
  a.cost_rank = b.cost_rank ∧ a.min_depth = b.min_depth ∧ a.kind = b.kind

/-- The frame property of filter application: the edge list, the node
count, the cost-rank data, the derived visible graph and every per-node
field other than `visible` are unchanged. -/
def FrameOnlyVisibility (g g' : InstGraph) : Prop :=
  g'.edges = g.edges ∧ g'.nodes.length = g.nodes.length ∧
  g'.cost_ranked_node_indices = g.cost_ranked_node_indices ∧
  g'.visible_nodes = g.visible_nodes ∧ g'.visible_edges = g.visible_edges ∧
  ∀ i, sameExceptVisible (nodeAt g' i) (nodeAt g i)

end Old

namespace New

/-- Predicate `EdgeChainN g u ks ts v`: the edge indices `ks` form a consecutive
path from node `u` to node `v`, visiting the nodes `ts` (the target of
each edge in turn, so the last entry of `ts` is `v` when `ks` is
nonempty). -/
def EdgeChainN (g : RawGraph) : Nat → List Nat → List Nat → Nat → Prop
  | u, [], [], v => u = v
  | u, k :: ks, t :: ts, v => g.edges[k]? = some (u, t) ∧ EdgeChainN g t ks ts v
  | _, _ :: _, [], _ => False
  | _, [], _ :: _, _ => False

/-- Whether a visible edge is an `Indirect` edge. -/
def VEdge.isIndirect (er : VEdge) : Bool :=
  match er.w with
  | .Indirect _ => true
  | .Direct _ => false

/-- The "Smart" disabling policy exactly as the claim words it: an e-node
is disabled iff it has no children or exactly one parent and one child; a
given-equality node under the same rule; a transitive-equality node iff
it has no parents or exactly one parent and one child; an instantiation
node never.  (Claim-side refinement predicate, to be compared with the
source-derived `Disabler.disable`.) -/
def smartDisablerClaim (g : RawGraph) (i : Nat) : Prop :=
  match (nodeAt g i).kind with
  | .ENode => childrenCount g i = 0 ∨ (parentsCount g i = 1 ∧ childrenCount g i = 1)
  | .GivenEquality => childrenCount g i = 0 ∨ (parentsCount g i = 1 ∧ childrenCount g i = 1)
  | .TransEquality => parentsCount g i = 0 ∨ (parentsCount g i = 1 ∧ childrenCount g i = 1)
  | .Instantiation => False

end New

/-! ## Concrete inputs used by the counterexamples and witnesses -/

/-- A raw graph with visible endpoints `0` and `5` joined only through a
hidden diamond `1 → {2, 3} → 4`: node `0` reaches node `5` through
hidden nodes only, along two hidden paths, and no all-visible path
exists. -/
def cexDiamond : New.RawGraph :=
  { nodes :=
      [ ⟨.Instantiation, false⟩, ⟨.ENode, true⟩, ⟨.ENode, true⟩,
        ⟨.ENode, true⟩, ⟨.ENode, true⟩, ⟨.Instantiation, false⟩ ],
    edges := [(0, 1), (1, 2), (1, 3), (2, 4), (3, 4), (4, 5)],
    generation := 0 }

/-- A raw graph `0 (visible) → 1 (hidden) → 2 (visible)`. -/
def chainABD : New.RawGraph :=
  { nodes := [⟨.Instantiation, false⟩, ⟨.ENode, true⟩, ⟨.Instantiation, false⟩],
    edges := [(0, 1), (1, 2)],
    generation := 0 }

/-- A fact store with two equal-cost instantiations whose line numbers
are ordered opposite to their node indices: node `0` has line number `5`
and node `1` has line number `3`. -/
def c2p : Old.Z3Parser :=
  { dependencies :=
      [ ⟨0, some 5, some 0, 0, false⟩,
        ⟨0, some 3, some 1, 0, false⟩ ],
    instantiations := [⟨1⟩, ⟨1⟩] }

/-- A small well-formed raw graph state: two visible nodes with distinct
costs, ranks assigned in cost order. -/
def c2w : Old.InstGraph :=
  { nodes :=
      [ ⟨1, false, 2, some 0, 0, true, 0, 0, 0, 0, 0, .Instantiation⟩,
        ⟨2, false, 1, some 1, 0, true, 0, 0, 1, 1, 0, .Instantiation⟩ ],
    edges := [],
    visible_nodes :=
      [ ⟨1, false, 2, some 0, 0, true, 0, 0, 0, 0, 0, .Instantiation⟩,
        ⟨2, false, 1, some 1, 0, true, 0, 0, 1, 1, 0, .Instantiation⟩ ],
    visible_edges := [],
    cost_ranked_node_indices := [0, 1] }

/-- A fact store holding a dependency with a defined target line but no
target instantiation index, over an empty instantiation collection. -/
def c9p : Old.Z3Parser :=
  { dependencies := [⟨1, some 1, none, 0, false⟩],
    instantiations := [] }

/-- A truncated but self-consistent fact store: two defined targets (one
line duplicated), one undefined target, one edge from an unknown line
number. -/
def c9wit : Old.Z3Parser :=
  { dependencies :=
      [ ⟨0, some 1, some 0, 0, false⟩,
        ⟨1, some 2, some 1, 0, false⟩,
        ⟨7, some 2, some 1, 0, false⟩,
        ⟨0, none, none, 0, false⟩ ],
    instantiations := [⟨1⟩, ⟨2⟩] }

/-- The raw graph with zero nodes and zero edges (old engine). -/
def emptyInstGraph : Old.InstGraph :=
  { nodes := [], edges := [], visible_nodes := [], visible_edges := [],
    cost_ranked_node_indices := [] }

/-- The raw graph with zero nodes and zero edges (new engine). -/
def emptyRawGraph : New.RawGraph :=
  { nodes := [], edges := [], generation := 0 }

/-- A two-node all-visible raw graph (new engine). -/
def c8w : New.RawGraph :=
  { nodes := [⟨.Instantiation, false⟩, ⟨.Instantiation, false⟩],
    edges := [],
    generation := 0 }

/-! ## Basic lemmas about the old engine's operations -/

namespace Old

theorem set_visible_false_id (nd : NodeData) (h : nd.visible = false) :
    { nd with visible := false } = nd := by
  cases nd
  simp_all

theorem sameExceptVisible_refl (nd : NodeData) : sameExceptVisible nd nd := by
  unfold sameExceptVisible
  repeat constructor

theorem sameExceptVisible_set (nd : NodeData) (b : Bool) :
    sameExceptVisible { nd with visible := b } nd := by
  unfold sameExceptVisible
  repeat constructor

theorem default_not_visible : (default : NodeData).visible = false := rfl

theorem retain_nodes_nodeAt (g : InstGraph) (p : NodeData → Bool) (i : Nat) :
    nodeAt (g.retain_nodes p) i =
      if p (nodeAt g i) then nodeAt g i else { nodeAt g i with visible := false } := by
  unfold InstGraph.retain_nodes nodeAt
  simp only [List.getD_eq_getElem?_getD, List.getElem?_map]
  cases h : g.nodes[i]? with
  | none =>
    simp only [Option.map_none, Option.getD_none]
    split
    · rfl
    · exact (set_visible_false_id default rfl).symm
  | some nd => simp

theorem retain_nodes_visibleAt (g : InstGraph) (p : NodeData → Bool) (i : Nat) :
    visibleAt (g.retain_nodes p) i = (visibleAt g i && p (nodeAt g i)) := by
  unfold visibleAt
  rw [retain_nodes_nodeAt]
  cases h : p (nodeAt g i) <;> simp [h]

theorem retain_nodes_frame (g : InstGraph) (p : NodeData → Bool) :
    FrameOnlyVisibility g (g.retain_nodes p) := by
  refine ⟨rfl, by simp [InstGraph.retain_nodes], rfl, rfl, rfl, fun i => ?_⟩
  rw [retain_nodes_nodeAt]
  split
  · exact sameExceptVisible_refl _
  · exact sameExceptVisible_set _ _

theorem frame_refl (g : InstGraph) : FrameOnlyVisibility g g :=
  ⟨rfl, rfl, rfl, rfl, rfl, fun _ => sameExceptVisible_refl _⟩

theorem keep_n_most_costly_eq (g : InstGraph) (n : Nat) (g' : InstGraph)
    (h : g.keep_n_most_costly n = some g') :
    ∃ r, g' = g.retain_nodes (fun nd => nd.visible && decide (nd.cost_rank ≤ r)) := by
  simp only [InstGraph.keep_n_most_costly] at h
  split at h
  · cases h
  · exact ⟨_, (Option.some_inj.mp h).symm⟩

theorem narrowing_visible_subset (f : Filter) (g g' : InstGraph)
    (hn : f.narrowing = true) (h : f.apply g = some g') :
    ∀ i, visibleAt g' i = true → visibleAt g i = true := by
  cases f with
  | MaxNodeIdx n =>
    cases Option.some_inj.mp h
    intro i hv
    rw [retain_nodes_visibleAt, Bool.and_eq_true] at hv
    exact hv.1
  | MinNodeIdx n =>
    cases Option.some_inj.mp h
    intro i hv
    rw [retain_nodes_visibleAt, Bool.and_eq_true] at hv
    exact hv.1
  | IgnoreTheorySolving =>
    cases Option.some_inj.mp h
    intro i hv
    rw [retain_nodes_visibleAt, Bool.and_eq_true] at hv
    exact hv.1
  | MaxInsts n =>
    obtain ⟨r, rfl⟩ := keep_n_most_costly_eq g n g' h
    intro i hv
    rw [retain_nodes_visibleAt, Bool.and_eq_true] at hv
    exact hv.1
  | MaxDepth d =>
    cases Option.some_inj.mp h
    intro i hv
    rw [retain_nodes_visibleAt, Bool.and_eq_true] at hv
    exact hv.1
  | ShowNeighbours a b => cases hn
  | VisitSubTreeWithRoot a b => cases hn
  | VisitSourceTree a b => cases hn
  | IgnoreQuantifier q => cases hn
  | IgnoreAllButQuantifier q => cases hn
  | MaxBranching n => cases hn
  | ShowLongestPath r => cases hn
  | ShowMatchingLoopSubgraph => cases hn
  | IgnoreEqualityNodes => cases hn
  | PruneEqualityNodes => cases hn
  | IgnoreChainEqualityNodes => cases hn

theorem applyChain_append (l1 l2 : List Filter) (g : InstGraph) :
    applyChain (l1 ++ l2) g =
      match applyChain l1 g with
      | none => none
      | some g' => applyChain l2 g' := by
  induction l1 generalizing g with
  | nil => rfl
  | cons f fs ih =>
    simp only [List.cons_append, applyChain]
    cases f.apply g with
    | none => rfl
    | some g1 => exact ih g1

theorem applyChain_narrowing (fs : List Filter) (g g' : InstGraph)
    (hn : ∀ f ∈ fs, f.narrowing = true) (h : applyChain fs g = some g') :
    ∀ i, visibleAt g' i = true → visibleAt g i = true := by
  induction fs generalizing g with
  | nil =>
    cases Option.some_inj.mp h
    exact fun _ hv => hv
  | cons f fs ih =>
    simp only [applyChain] at h
    cases hf : f.apply g with
    | none => rw [hf] at h; cases h
    | some g1 =>
      rw [hf] at h
      intro i hv
      exact narrowing_visible_subset f g g1 (hn f (List.mem_cons_self f fs)) hf i
        (ih g1 (fun x hm => hn x (List.mem_cons_of_mem f hm)) h i hv)

end Old

/-! ## Claim theorems (first batch) -/

/-- C4: every application of any of the sixteen filter variants leaves
the raw graph's node set, edge set, cost-rank data and all per-node
fields other than the `visible` flag unchanged — a hidden node is never
deleted, only its visibility flag changes. -/
theorem C4_filter_frame (f : Old.Filter) (g g' : Old.InstGraph)
    (h : f.apply g = some g') : Old.FrameOnlyVisibility g g' := by
  cases f with
  | MaxNodeIdx n => cases Option.some_inj.mp h; exact Old.retain_nodes_frame g _
  | MinNodeIdx n => cases Option.some_inj.mp h; exact Old.retain_nodes_frame g _
  | IgnoreTheorySolving => cases Option.some_inj.mp h; exact Old.retain_nodes_frame g _
  | IgnoreQuantifier q => cases Option.some_inj.mp h; exact Old.retain_nodes_frame g _
  | IgnoreAllButQuantifier q => cases Option.some_inj.mp h; exact Old.retain_nodes_frame g _
  | MaxInsts n =>
    obtain ⟨r, rfl⟩ := Old.keep_n_most_costly_eq g n g' h
    exact Old.retain_nodes_frame g _
  | MaxBranching n =>
    cases Option.some_inj.mp h
    unfold Old.InstGraph.keep_n_most_branching
    exact Old.retain_nodes_frame g _
  | MaxDepth d => cases Option.some_inj.mp h; exact Old.retain_nodes_frame g _
  | ShowNeighbours a b => cases Option.some_inj.mp h; exact Old.frame_refl g
  | VisitSubTreeWithRoot a b =>
    cases Option.some_inj.mp h
    unfold Old.visit_descendants
    split
    · exact Old.retain_nodes_frame g _
    · exact Old.retain_nodes_frame g _
  | VisitSourceTree a b =>
    cases Option.some_inj.mp h
    unfold Old.visit_ancestors
    split
    · exact Old.retain_nodes_frame g _
    · exact Old.retain_nodes_frame g _
  | ShowLongestPath r =>
    cases Option.some_inj.mp h
    unfold Old.InstGraph.show_longest_path_through
    exact Old.retain_nodes_frame g _
  | ShowMatchingLoopSubgraph => cases Option.some_inj.mp h; exact Old.frame_refl g
  | IgnoreEqualityNodes => cases Option.some_inj.mp h; exact Old.retain_nodes_frame g _
  | PruneEqualityNodes => cases Option.some_inj.mp h; exact Old.retain_nodes_frame g _
  | IgnoreChainEqualityNodes => cases Option.some_inj.mp h; exact Old.retain_nodes_frame g _

/-- Witness for C4: applying `MaxNodeIdx 0` to the concrete two-node
graph succeeds and satisfies the frame property. -/
theorem C4_filter_frame_witness :
    Old.Filter.apply (.MaxNodeIdx 0) c2w =
      some (c2w.retain_nodes (fun nd => decide (nd.orig_graph_idx ≤ 0))) ∧
    Old.FrameOnlyVisibility c2w
      (c2w.retain_nodes (fun nd => decide (nd.orig_graph_idx ≤ 0))) :=
  ⟨rfl, C4_filter_frame (.MaxNodeIdx 0) c2w _ rfl⟩

/-- C5: for a chain built only from the narrowing filters (`MaxNodeIdx`,
`MinNodeIdx`, `IgnoreTheorySolving`, `MaxInsts`, `MaxDepth` — no
`ShowNeighbours`), the visible node set after the full chain is a subset
of the visible node set after any of its first `k` filters. -/
theorem C5_chain_monotonic_narrowing (fs : List Old.Filter) (g g' : Old.InstGraph)
    (hn : ∀ f ∈ fs, f.narrowing = true) (h : Old.applyChain fs g = some g') (k : Nat) :
    ∃ g'', Old.applyChain (fs.take k) g = some g'' ∧
      ∀ i, Old.visibleAt g' i = true → Old.visibleAt g'' i = true := by
  have hsplit := Old.applyChain_append (fs.take k) (fs.drop k) g
  rw [List.take_append_drop, h] at hsplit
  cases hp : Old.applyChain (fs.take k) g with
  | none => rw [hp] at hsplit; cases hsplit
  | some g'' =>
    rw [hp] at hsplit
    refine ⟨g'', rfl, ?_⟩
    exact Old.applyChain_narrowing (fs.drop k) g'' g'
      (fun f hm => hn f (List.drop_subset k fs hm)) hsplit.symm

/-- Witness for C5: a concrete narrowing chain on the two-node graph. -/
theorem C5_chain_monotonic_narrowing_witness :
    (∀ f ∈ [Old.Filter.MaxNodeIdx 0, Old.Filter.IgnoreTheorySolving], f.narrowing = true) ∧
    Old.applyChain [Old.Filter.MaxNodeIdx 0, Old.Filter.IgnoreTheorySolving] c2w =
      some (c2w.retain_nodes (fun nd => decide (nd.orig_graph_idx ≤ 0))) ∧
    (∃ g'', Old.applyChain ([Old.Filter.MaxNodeIdx 0, Old.Filter.IgnoreTheorySolving].take 1) c2w =
        some g'' ∧
      ∀ i, Old.visibleAt (c2w.retain_nodes (fun nd => decide (nd.orig_graph_idx ≤ 0))) i = true →
        Old.visibleAt g'' i = true) :=
  ⟨by decide, by decide,
    C5_chain_monotonic_narrowing _ c2w _ (by decide) (by decide) 1⟩

/-- C6: `reset` makes every node visible, rebuilds the visible graph as a
full copy of the raw graph (same nodes, same edges), increments the
generation counter, and an empty filter chain afterwards changes
nothing. -/
theorem C6_reset_restores_all_visible (s : Old.Session) :
    (s.reset.graph.nodes.all (fun nd => nd.visible)) = true ∧
    s.reset.graph.nodes = s.graph.nodes.map (fun nd => { nd with visible := true }) ∧
    s.reset.graph.visible_nodes = s.reset.graph.nodes ∧
    s.reset.graph.visible_edges = s.graph.edges ∧
    s.reset.graph.edges = s.graph.edges ∧
    s.reset.generation = s.generation + 1 ∧
    Old.applyChain [] s.reset.graph = some s.reset.graph := by
  refine ⟨?_, rfl, rfl, rfl, rfl, rfl, rfl⟩
  simp [Old.Session.reset, Old.InstGraph.reset, List.all_eq_true]

/-- C7: the Smart disabler disables an e-node iff it has no children or
exactly one parent and one child, a given-equality node under the same
rule, a transitive-equality node iff it has no parents or exactly one
parent and one child, and never an instantiation node; the other
disablers disable exactly their kind, and several active disablers
combine as the logical OR of their predicates. -/
theorem C7_smart_disabler (g : New.RawGraph) (i : Nat) (ds : List New.Disabler) :
    (New.Disabler.disable .Smart g i = true ↔ New.smartDisablerClaim g i) ∧
    (New.Disabler.disable .ENodes g i = true ↔ (New.nodeAt g i).kind = .ENode) ∧
    (New.Disabler.disable .GivenEqualities g i = true ↔
      (New.nodeAt g i).kind = .GivenEquality) ∧
    (New.Disabler.disable .AllEqualities g i = true ↔
      ((New.nodeAt g i).kind = .GivenEquality ∨ (New.nodeAt g i).kind = .TransEquality)) ∧
    (New.disableMany ds g i = true ↔ ∃ d ∈ ds, New.Disabler.disable d g i = true) := by
  refine ⟨?_, by simp [New.Disabler.disable], by simp [New.Disabler.disable],
    by simp [New.Disabler.disable], by simp [New.disableMany, List.any_eq_true]⟩
  unfold New.Disabler.disable New.smartDisablerClaim
  cases hk : (New.nodeAt g i).kind <;> simp [hk]

/-- C8: `MaxNodeIdx(n)` hides exactly the nodes with index at least `n`
and `MinNodeIdx(n)` exactly those with index below `n`; every other
node's visibility flag, the node count and the edge list are
unchanged. -/
theorem C8_index_filters (g : New.RawGraph) (n i : Nat) (hi : i < g.nodes.length) :
    New.hiddenAt (New.applyMaxNodeIdx n g) i = (if n ≤ i then true else New.hiddenAt g i) ∧
    New.hiddenAt (New.applyMinNodeIdx n g) i = (if i < n then true else New.hiddenAt g i) ∧
    (New.applyMaxNodeIdx n g).edges = g.edges ∧
    (New.applyMinNodeIdx n g).edges = g.edges ∧
    (New.applyMaxNodeIdx n g).nodes.length = g.nodes.length ∧
    (New.applyMinNodeIdx n g).nodes.length = g.nodes.length := by
  have key : ∀ (b : Bool) (p : Nat → New.Node → Bool),
      New.nodeAt (New.set_visibility_when g b p) i =
        if p i (New.nodeAt g i) then { New.nodeAt g i with hidden := b }
        else New.nodeAt g i := by
    intro b p
    unfold New.set_visibility_when New.nodeAt
    simp only [List.getD_eq_getElem?_getD, List.getElem?_map, List.getElem?_enum]
    rw [List.getElem?_eq_getElem hi]
    simp
  refine ⟨?_, ?_, rfl, rfl, by simp [New.applyMaxNodeIdx, New.set_visibility_when],
    by simp [New.applyMinNodeIdx, New.set_visibility_when]⟩
  · unfold New.applyMaxNodeIdx New.hiddenAt
    rw [key]
    by_cases hni : n ≤ i <;> simp [hni]
  · unfold New.applyMinNodeIdx New.hiddenAt
    rw [key]
    by_cases hni : i < n <;> simp [hni]

/-- Witness for C8 at a concrete graph, `n = 1`, `i = 1`. -/
theorem C8_index_filters_witness :
    1 < c8w.nodes.length ∧
    (New.hiddenAt (New.applyMaxNodeIdx 1 c8w) 1 = (if 1 ≤ 1 then true else New.hiddenAt c8w 1) ∧
      New.hiddenAt (New.applyMinNodeIdx 1 c8w) 1 = (if 1 < 1 then true else New.hiddenAt c8w 1) ∧
      (New.applyMaxNodeIdx 1 c8w).edges = c8w.edges ∧
      (New.applyMinNodeIdx 1 c8w).edges = c8w.edges ∧
      (New.applyMaxNodeIdx 1 c8w).nodes.length = c8w.nodes.length ∧
      (New.applyMinNodeIdx 1 c8w).nodes.length = c8w.nodes.length) :=
  ⟨by decide, C8_index_filters c8w 1 1 (by decide)⟩

/-- C3 (code bug evaluation): on the raw graph with zero nodes the
materializer and the plain retain-style filters produce the empty
visible graph, but `keep_n_most_costly` — the `MaxInsts` filter — hits
its `unwrap()` panic (modelled by `none`) for every `n` instead of
completing. -/
theorem C3_empty_graph_eval :
    (∀ n, Old.InstGraph.keep_n_most_costly emptyInstGraph n = none) ∧
    New.toVisible emptyRawGraph = ⟨[], [], 0⟩ ∧
    Old.Filter.apply .IgnoreTheorySolving emptyInstGraph = some emptyInstGraph ∧
    Old.Filter.apply (.MaxNodeIdx 3) emptyInstGraph = some emptyInstGraph ∧
    Old.Filter.apply (.MinNodeIdx 3) emptyInstGraph = some emptyInstGraph ∧
    Old.Filter.apply (.MaxDepth 3) emptyInstGraph = some emptyInstGraph ∧
    Old.InstGraph.reset emptyInstGraph = emptyInstGraph := by
  refine ⟨fun n => ?_, rfl, rfl, rfl, rfl, rfl, rfl⟩
  simp [Old.InstGraph.keep_n_most_costly, emptyInstGraph]

/-- C1 (counterexample): in `cexDiamond` the visible nodes `0` and `5`
are joined only through hidden nodes, along two hidden paths, and the
materializer emits two `Indirect` edges between them — not exactly
one. -/
theorem C1_counterexample :
    New.visible cexDiamond 0 = true ∧ New.visible cexDiamond 5 = true ∧
    New.hiddenAt cexDiamond 1 = true ∧ New.hiddenAt cexDiamond 2 = true ∧
    New.hiddenAt cexDiamond 3 = true ∧ New.hiddenAt cexDiamond 4 = true ∧
    New.EdgeChainN cexDiamond 0 [0, 1, 3, 5] [1, 2, 4, 5] 5 ∧
    New.edgesFrom cexDiamond 0 = [⟨0, 0, 1⟩] ∧
    ((New.toVisible cexDiamond).edges.filter (fun er =>
        er.src == New.vIdx cexDiamond 0 && er.tgt == New.vIdx cexDiamond 5 &&
          er.isIndirect)).length = 2 ∧
    ((New.toVisible cexDiamond).edges.filter (fun er => !er.isIndirect)).length = 0 ∧
    (2 : Nat) ≠ 1 := by
  refine ⟨rfl, rfl, rfl, rfl, rfl, rfl, ?_, by decide, by decide, by decide, by decide⟩
  simp [New.EdgeChainN, cexDiamond]

/-- C2 (counterexample): in the graph built from `c2p` the two nodes have
equal cost and node `0` has the lower origin index, yet `MaxInsts 1`
keeps node `1` — the tie is broken by the lower *line number* (node `1`
has line `3`, node `0` line `5`), not by the lower origin index. -/
theorem C2_counterexample :
    (Old.computeInstantiationGraph c2p).map (fun g =>
        ((Old.nodeAt g 0).cost, (Old.nodeAt g 1).cost)) = some (1, 1) ∧
    (Old.computeInstantiationGraph c2p).map (fun g =>
        ((Old.nodeAt g 0).line_nr, (Old.nodeAt g 1).line_nr,
         (Old.nodeAt g 0).orig_graph_idx, (Old.nodeAt g 1).orig_graph_idx)) =
      some (5, 3, 0, 1) ∧
    (Old.computeInstantiationGraph c2p).map (fun g =>
        (Old.visibleAt g 0, Old.visibleAt g 1)) = some (true, true) ∧
    ((Old.computeInstantiationGraph c2p).bind (fun g => g.keep_n_most_costly 1)).map
        (fun g => (Old.visibleAt g 0, Old.visibleAt g 1)) =
      some (false, true) ∧
    ((false, true) : Bool × Bool) ≠ (true, false) := by
  refine ⟨by decide, by decide, by decide, by decide, by decide⟩

/-- C9 (counterexample): a dependency list holding an entry with a
defined target line but no target instantiation index makes construction
panic (`.unwrap()` on `to_iidx`), modelled by `none` — construction does
not complete on every dependency list. -/
theorem C9_counterexample : Old.computeInstantiationGraph c9p = none := by
  decide

/-! ## Construction lemmas for the amended C9 -/

namespace Old

theorem findIdx?_bounds {α : Type} (p : α → Bool) :
    ∀ (xs : List α) (i j : Nat), List.findIdx? p xs i = some j → i ≤ j ∧ j < i + xs.length := by
  intro xs
  induction xs with
  | nil => intro i j h; rw [List.findIdx?_nil] at h; cases h
  | cons a t ih =>
    intro i j h
    rw [List.findIdx?_cons] at h
    split at h
    · cases h
      exact ⟨Nat.le_refl _, by simp⟩
    · obtain ⟨h1, h2⟩ := ih (i + 1) j h
      refine ⟨Nat.le_of_succ_le h1, ?_⟩
      simp only [List.length_cons]
      omega

theorem line_idx_lt (nodes : List NodeData) (l i : Nat) (h : line_idx nodes l = some i) :
    i < nodes.length := by
  unfold line_idx at h
  have := findIdx?_bounds (fun nd => nd.line_nr == l) nodes 0 i h
  omega

theorem add_edge_valid (nodes : List NodeData) (edges : List (Nat × Nat)) (f t : Nat)
    (h : ∀ e ∈ edges, e.1 < nodes.length ∧ e.2 < nodes.length) :
    ∀ e ∈ add_edge nodes edges f t, e.1 < nodes.length ∧ e.2 < nodes.length := by
  unfold add_edge
  split
  · next a b ha hb =>
    intro e he
    rcases List.mem_append.mp he with he | he
    · exact h e he
    · rcases List.mem_singleton.mp he with rfl
      exact ⟨line_idx_lt nodes f a ha, line_idx_lt nodes t b hb⟩
  · exact h

theorem computeEdges_valid (p : Z3Parser) (nodes : List NodeData) :
    ∀ e ∈ computeEdges p nodes, e.1 < nodes.length ∧ e.2 < nodes.length := by
  unfold computeEdges
  generalize hacc : ([] : List (Nat × Nat)) = acc
  have hbase : ∀ e ∈ acc, e.1 < nodes.length ∧ e.2 < nodes.length := by
    subst hacc; intro e he; cases he
  clear hacc
  induction p.dependencies generalizing acc with
  | nil => exact hbase
  | cons dep deps ih =>
    rw [List.foldl_cons]
    apply ih
    cases dep.to_ with
    | none => exact hbase
    | some l =>
      simp only
      split
      · exact add_edge_valid nodes acc dep.from_ l hbase
      · exact hbase

theorem add_node_lines (nodes : List NodeData) (nd : NodeData) :
    ((add_node nodes nd).map (fun x => x.line_nr)) =
      if nodes.any (fun x => x.line_nr == nd.line_nr) then nodes.map (fun x => x.line_nr)
      else nodes.map (fun x => x.line_nr) ++ [nd.line_nr] := by
  unfold add_node
  split <;> simp

theorem computeNodes_ok (p : Z3Parser) :
    ∀ (deps : List Dependency) (acc : List NodeData),
      (∀ dep ∈ deps, dep.to_.isSome = true →
        (dep.to_iidx.bind (fun k => p.instantiations.get? k)).isSome = true) →
      ((acc.map (fun x => x.line_nr)).Nodup) →
      ∃ nds,
        deps.foldlM (fun nodes dep =>
          match dep.to_ with
          | none => some nodes
          | some l =>
            match dep.to_iidx.bind (fun k => p.instantiations.get? k) with
            | none => none
            | some inst =>
              some (add_node nodes
                { line_nr := l, is_theory_inst := dep.quant_discovered, cost := inst.cost,
                  inst_idx := dep.to_iidx, quant_idx := dep.quant, visible := true,
                  child_count := 0, parent_count := 0, orig_graph_idx := 0,
                  cost_rank := 0, min_depth := 0 })) acc = some nds ∧
        ((nds.map (fun x => x.line_nr)).Nodup) ∧
        ∀ l, l ∈ nds.map (fun x => x.line_nr) ↔
          (l ∈ acc.map (fun x => x.line_nr) ∨ ∃ dep ∈ deps, dep.to_ = some l) := by
  intro deps
  induction deps with
  | nil =>
    intro acc _ hnd
    exact ⟨acc, rfl, hnd, fun l => by simp⟩
  | cons dep deps ih =>
    intro acc hv hnd
    rw [List.foldlM_cons]
    cases hto : dep.to_ with
    | none =>
      obtain ⟨nds, h1, h2, h3⟩ := ih acc (fun d hd hs => hv d (List.mem_cons_of_mem dep hd) hs) hnd
      refine ⟨nds, h1, h2, fun l => ?_⟩
      rw [h3 l]
      constructor
      · rintro (h | ⟨d, hd, hdl⟩)
        · exact Or.inl h
        · exact Or.inr ⟨d, List.mem_cons_of_mem dep hd, hdl⟩
      · rintro (h | ⟨d, hd, hdl⟩)
        · exact Or.inl h
        · rcases List.mem_cons.mp hd with rfl | hd
          · rw [hto] at hdl; cases hdl
          · exact Or.inr ⟨d, hd, hdl⟩
    | some l =>
      have hs : (dep.to_iidx.bind (fun k => p.instantiations.get? k)).isSome = true :=
        hv dep (List.mem_cons_self dep deps) (by rw [hto]; rfl)
      cases hbind : dep.to_iidx.bind (fun k => p.instantiations.get? k) with
      | none => rw [hbind] at hs; cases hs
      | some inst =>
        simp only [hto, hbind]
        set nd : NodeData :=
          { line_nr := l, is_theory_inst := dep.quant_discovered, cost := inst.cost,
            inst_idx := dep.to_iidx, quant_idx := dep.quant, visible := true,
            child_count := 0, parent_count := 0, orig_graph_idx := 0,
            cost_rank := 0, min_depth := 0 } with hnddef
        have hacc' : ((add_node acc nd).map (fun x => x.line_nr)).Nodup := by
          rw [add_node_lines]
          split
          · exact hnd
          · next hany =>
            rw [List.nodup_append]
            refine ⟨hnd, List.nodup_singleton _, fun a ha hb => ?_⟩
            rcases List.mem_singleton.mp hb with rfl
            rcases List.mem_map.mp ha with ⟨x, hx, hxl⟩
            have hall : ∀ x ∈ acc, (x.line_nr == nd.line_nr) = false := by
              intro y hy
              cases hyl : (y.line_nr == nd.line_nr) with
              | false => rfl
              | true => exact absurd (List.any_eq_true.mpr ⟨y, hy, hyl⟩) hany
            have := hall x hx
            rw [hxl] at this
            simp at this
        obtain ⟨nds, h1, h2, h3⟩ :=
          ih (add_node acc nd) (fun d hd hs => hv d (List.mem_cons_of_mem dep hd) hs) hacc'
        refine ⟨nds, h1, h2, fun l' => ?_⟩
        rw [h3 l']
        have hmemadd : l' ∈ (add_node acc nd).map (fun x => x.line_nr) ↔
            (l' ∈ acc.map (fun x => x.line_nr) ∨ l' = l) := by
          rw [add_node_lines]
          split
          · next hany =>
            constructor
            · exact Or.inl
            · rintro (h | rfl)
              · exact h
              · rcases List.any_eq_true.mp hany with ⟨x, hx, hxl⟩
                exact List.mem_map.mpr ⟨x, hx, by simpa using hxl⟩
          · simp [hnddef]
        rw [hmemadd]
        constructor
        · rintro ((h | rfl) | ⟨d, hd, hdl⟩)
          · exact Or.inl h
          · exact Or.inr ⟨dep, List.mem_cons_self dep deps, hto⟩
          · exact Or.inr ⟨d, List.mem_cons_of_mem dep hd, hdl⟩
        · rintro (h | ⟨d, hd, hdl⟩)
          · exact Or.inl (Or.inl h)
          · rcases List.mem_cons.mp hd with rfl | hd
            · rw [hto] at hdl
              cases hdl
              exact Or.inl (Or.inr rfl)
            · exact Or.inr ⟨d, hd, hdl⟩

theorem enumMap_lines (nds : List NodeData) (f : Nat × NodeData → NodeData)
    (hf : ∀ pr, (f pr).line_nr = pr.2.line_nr) :
    (nds.enum.map f).map (fun nd => nd.line_nr) = nds.map (fun nd => nd.line_nr) := by
  apply List.ext_getElem?
  intro n
  simp only [List.getElem?_map, List.getElem?_enum]
  cases nds[n]? <;> simp [hf]

theorem withCounts_lines (nds : List NodeData) (E : List (Nat × Nat)) :
    (withCounts nds E).map (fun nd => nd.line_nr) = nds.map (fun nd => nd.line_nr) := by
  unfold withCounts
  exact enumMap_lines _ _ (fun pr => rfl)

theorem withDepths_lines (nds : List NodeData) (E : List (Nat × Nat)) :
    (withDepths nds E).map (fun nd => nd.line_nr) = nds.map (fun nd => nd.line_nr) := by
  unfold withDepths
  exact enumMap_lines _ _ (fun pr => rfl)

theorem assignRanks_length : ∀ (rs : List Nat) (k : Nat) (nds : List NodeData),
    (assignRanks nds rs k).length = nds.length := by
  intro rs
  induction rs with
  | nil => intro k nds; rfl
  | cons r rs ih =>
    intro k nds
    rw [assignRanks, ih]
    exact List.length_set nds r _

theorem assignRanks_lines : ∀ (rs : List Nat) (k : Nat) (nds : List NodeData),
    (assignRanks nds rs k).map (fun nd => nd.line_nr) = nds.map (fun nd => nd.line_nr) := by
  intro rs
  induction rs with
  | nil => intro k nds; rfl
  | cons r rs ih =>
    intro k nds
    rw [assignRanks, ih, List.map_set]
    apply List.ext_getElem?
    intro n
    rw [List.getElem?_set]
    split
    · next hrn =>
      subst hrn
      split
      · next hlt =>
        have hlt' : r < nds.length := by simpa using hlt
        rw [List.getElem?_map, List.getElem?_eq_getElem hlt']
        simp [List.getD_eq_getElem?_getD, List.getElem?_eq_getElem hlt']
      · next hge => exact (List.getElem?_eq_none (Nat.le_of_not_lt hge)).symm
    · rfl

end Old

/-- C9 (amended): provided every dependency with a defined target carries
an instantiation index present in the fact store, raw graph construction
completes without error; it creates exactly one node per distinct defined
target line number (a dependency with an undefined target creates no
node), and every edge connects existing nodes (a dependency whose source
or target line number has no corresponding node adds no edge). -/
theorem C9_amended (p : Old.Z3Parser)
    (hvalid : ∀ dep ∈ p.dependencies, dep.to_.isSome = true →
      (dep.to_iidx.bind (fun k => p.instantiations.get? k)).isSome = true) :
    ∃ g, Old.computeInstantiationGraph p = some g ∧
      ((g.nodes.map (fun nd => nd.line_nr)).Nodup) ∧
      (∀ l, l ∈ g.nodes.map (fun nd => nd.line_nr) ↔
        ∃ dep ∈ p.dependencies, dep.to_ = some l) ∧
      ∀ e ∈ g.edges, e.1 < g.nodes.length ∧ e.2 < g.nodes.length := by
  obtain ⟨nds, h1, h2, h3⟩ := Old.computeNodes_ok p p.dependencies [] hvalid (by simp)
  have hcn : Old.computeNodes p = some nds := h1
  refine ⟨_, by rw [Old.computeInstantiationGraph, hcn], ?_, ?_, ?_⟩
  all_goals simp only
  · rw [Old.assignRanks_lines, Old.withDepths_lines, Old.withCounts_lines]
    exact h2
  · intro l
    rw [Old.assignRanks_lines, Old.withDepths_lines, Old.withCounts_lines, h3 l]
    simp
  · intro e he
    have hlen : (Old.assignRanks
        (Old.withDepths (Old.withCounts nds (Old.computeEdges p nds)) (Old.computeEdges p nds))
        (Old.sortIndices
          (Old.withDepths (Old.withCounts nds (Old.computeEdges p nds)) (Old.computeEdges p nds)))
        0).length = nds.length := by
      rw [Old.assignRanks_length]
      simp [Old.withDepths, Old.withCounts]
    rw [hlen]
    exact Old.computeEdges_valid p nds e he

/-! ## Closure and chain lemmas for the materializer -/

theorem contains_iff_mem (l : List Nat) (a : Nat) : l.contains a = true ↔ a ∈ l := by
  simp [List.contains, List.elem_iff]

theorem subset_stepFwd (E : List (Nat × Nat)) (s : List Nat) : s ⊆ stepFwd E s :=
  fun a ha => List.mem_append_left _ ha

theorem subset_stepBwd (E : List (Nat × Nat)) (s : List Nat) : s ⊆ stepBwd E s :=
  fun a ha => List.mem_append_left _ ha

theorem stepFwd_mono (E : List (Nat × Nat)) {s t : List Nat} (h : s ⊆ t) :
    stepFwd E s ⊆ stepFwd E t := by
  intro a ha
  rcases List.mem_append.mp ha with ha | ha
  · exact List.mem_append_left _ (h ha)
  · refine List.mem_append_right _ ?_
    rcases List.mem_map.mp ha with ⟨e, he, rfl⟩
    rcases List.mem_filter.mp he with ⟨heE, hc⟩
    exact List.mem_map.mpr ⟨e, List.mem_filter.mpr
      ⟨heE, (contains_iff_mem _ _).mpr (h ((contains_iff_mem _ _).mp hc))⟩, rfl⟩

theorem stepBwd_mono (E : List (Nat × Nat)) {s t : List Nat} (h : s ⊆ t) :
    stepBwd E s ⊆ stepBwd E t := by
  intro a ha
  rcases List.mem_append.mp ha with ha | ha
  · exact List.mem_append_left _ (h ha)
  · refine List.mem_append_right _ ?_
    rcases List.mem_map.mp ha with ⟨e, he, rfl⟩
    rcases List.mem_filter.mp he with ⟨heE, hc⟩
    exact List.mem_map.mpr ⟨e, List.mem_filter.mpr
      ⟨heE, (contains_iff_mem _ _).mpr (h ((contains_iff_mem _ _).mp hc))⟩, rfl⟩

theorem iterStep_mono_set (step : List Nat → List Nat)
    (hmono : ∀ {s t : List Nat}, s ⊆ t → step s ⊆ step t) :
    ∀ (k : Nat) {s t : List Nat}, s ⊆ t → iterStep step k s ⊆ iterStep step k t := by
  intro k
  induction k with
  | zero => exact fun h => h
  | succ k ih => exact fun h => ih (hmono h)

theorem subset_iterStep (step : List Nat → List Nat)
    (hsub : ∀ s : List Nat, s ⊆ step s)
    (hmono : ∀ {s t : List Nat}, s ⊆ t → step s ⊆ step t) :
    ∀ (k : Nat) (s : List Nat), s ⊆ iterStep step k s := by
  intro k
  induction k with
  | zero => exact fun s => List.Subset.refl s
  | succ k ih =>
    intro s
    exact (hsub s).trans (ih (step s))

theorem iterStep_succ_outside (step : List Nat → List Nat) :
    ∀ (k : Nat) (s : List Nat), iterStep step (k + 1) s = step (iterStep step k s) := by
  intro k
  induction k with
  | zero => intro s; rfl
  | succ k ih =>
    intro s
    show iterStep step (k + 1) (step s) = _
    rw [ih (step s)]
    rfl

namespace New

theorem visible_lt_length (g : RawGraph) (i : Nat) (h : visible g i = true) :
    i < g.nodes.length := by
  by_contra hge
  have : g.nodes[i]? = none := List.getElem?_eq_none (Nat.le_of_not_lt hge)
  unfold visible nodeAt at h
  rw [List.getD_eq_getElem?_getD, this] at h
  cases h

theorem mem_visList (g : RawGraph) (i : Nat) :
    i ∈ visList g ↔ i < g.nodes.length ∧ visible g i = true := by
  unfold visList
  rw [List.mem_filter, List.mem_range]

theorem chainN_lengths (g : RawGraph) :
    ∀ (ks ts : List Nat) (u v : Nat), EdgeChainN g u ks ts v → ks.length = ts.length := by
  intro ks
  induction ks with
  | nil =>
    intro ts u v h
    cases ts with
    | nil => rfl
    | cons t ts => cases h
  | cons k ks ih =>
    intro ts u v h
    cases ts with
    | nil => cases h
    | cons t ts =>
      obtain ⟨-, hrest⟩ := h
      simpa using ih ts t v hrest

theorem chainN_snoc (g : RawGraph) :
    ∀ (ks ts : List Nat) (u v k w : Nat), EdgeChainN g u ks ts v →
      g.edges[k]? = some (v, w) → EdgeChainN g u (ks ++ [k]) (ts ++ [w]) w := by
  intro ks
  induction ks with
  | nil =>
    intro ts u v k w h he
    cases ts with
    | nil => cases h; exact ⟨he, rfl⟩
    | cons t ts => cases h
  | cons k0 ks ih =>
    intro ts u v k w h he
    cases ts with
    | nil => cases h
    | cons t ts =>
      obtain ⟨h0, hrest⟩ := h
      exact ⟨h0, ih ts t v k w hrest he⟩

theorem chainN_mem_suffix (g : RawGraph) :
    ∀ (ks ts : List Nat) (u v m : Nat), EdgeChainN g u ks ts v → (m = u ∨ m ∈ ts) →
      ∃ ks' ts', EdgeChainN g m ks' ts' v ∧ ks'.length ≤ ks.length := by
  intro ks
  induction ks with
  | nil =>
    intro ts u v m h hm
    cases ts with
    | nil =>
      cases h
      rcases hm with rfl | hm
      · exact ⟨[], [], rfl, Nat.le_refl _⟩
      · cases hm
    | cons t ts => cases h
  | cons k ks ih =>
    intro ts u v m h hm
    cases ts with
    | nil => cases h
    | cons t ts =>
      obtain ⟨h0, hrest⟩ := h
      rcases hm with rfl | hm
      · exact ⟨k :: ks, t :: ts, ⟨h0, hrest⟩, Nat.le_refl _⟩
      · rcases List.mem_cons.mp hm with rfl | hm
        · obtain ⟨ks', ts', hc, hl⟩ := ih ts m v m hrest (Or.inl rfl)
          exact ⟨ks', ts', hc, Nat.le_succ_of_le hl⟩
        · obtain ⟨ks', ts', hc, hl⟩ := ih ts t v m hrest (Or.inr hm)
          exact ⟨ks', ts', hc, Nat.le_succ_of_le hl⟩

theorem chainN_take (g : RawGraph) :
    ∀ (ks ts : List Nat) (u v : Nat) (j : Nat), EdgeChainN g u ks ts v → j < ts.length →
      EdgeChainN g u (ks.take (j + 1)) (ts.take (j + 1)) (ts.getD j 0) := by
  intro ks
  induction ks with
  | nil =>
    intro ts u v j h hj
    cases ts with
    | nil => cases hj
    | cons t ts => cases h
  | cons k ks ih =>
    intro ts u v j h hj
    cases ts with
    | nil => cases h
    | cons t ts =>
      obtain ⟨h0, hrest⟩ := h
      cases j with
      | zero =>
        refine ⟨h0, ?_⟩
        rfl
      | succ j =>
        refine ⟨h0, ?_⟩
        exact ih ts t v j hrest (by simpa using hj)

theorem chain_mem_reachFwd (g : RawGraph) :
    ∀ (ks ts : List Nat) (u v : Nat) (k : Nat) (s : List Nat),
      EdgeChainN g u ks ts v → u ∈ s → ks.length ≤ k →
      v ∈ iterStep (stepFwd g.edges) k s := by
  intro ks
  induction ks with
  | nil =>
    intro ts u v k s h hu _
    cases ts with
    | nil =>
      cases h
      exact subset_iterStep _ (subset_stepFwd g.edges) (stepFwd_mono g.edges) k s hu
    | cons t ts => cases h
  | cons k0 ks ih =>
    intro ts u v k s h hu hlen
    cases ts with
    | nil => cases h
    | cons t ts =>
      obtain ⟨h0, hrest⟩ := h
      cases k with
      | zero => cases hlen
      | succ k =>
        show v ∈ iterStep (stepFwd g.edges) k (stepFwd g.edges s)
        refine ih ts t v k (stepFwd g.edges s) hrest ?_ (by simpa using hlen)
        refine List.mem_append_right _ ?_
        refine List.mem_map.mpr ⟨(u, t), List.mem_filter.mpr ⟨?_, ?_⟩, rfl⟩
        · exact List.getElem?_mem h0
        · exact (contains_iff_mem _ _).mpr hu

theorem chain_mem_reachBwd (g : RawGraph) :
    ∀ (ks ts : List Nat) (u v : Nat) (k : Nat) (s : List Nat),
      EdgeChainN g u ks ts v → v ∈ s → ks.length ≤ k →
      u ∈ iterStep (stepBwd g.edges) k s := by
  intro ks
  induction ks with
  | nil =>
    intro ts u v k s h hv _
    cases ts with
    | nil =>
      cases h
      exact subset_iterStep _ (subset_stepBwd g.edges) (stepBwd_mono g.edges) k s hv
    | cons t ts => cases h
  | cons k0 ks ih =>
    intro ts u v k s h hv hlen
    cases ts with
    | nil => cases h
    | cons t ts =>
      obtain ⟨h0, hrest⟩ := h
      cases k with
      | zero => cases hlen
      | succ k =>
        have ht : t ∈ iterStep (stepBwd g.edges) k s :=
          ih ts t v k s hrest hv (by simpa using Nat.le_of_succ_le_succ hlen)
        rw [iterStep_succ_outside]
        refine List.mem_append_right _ ?_
        refine List.mem_map.mpr ⟨(u, t), List.mem_filter.mpr ⟨?_, ?_⟩, rfl⟩
        · exact List.getElem?_mem h0
        · exact (contains_iff_mem _ _).mpr ht

theorem edgesFrom_spec (g : RawGraph) (u : Nat) (f : RawEdge) (h : f ∈ edgesFrom g u) :
    f.src = u ∧ g.edges[f.idx]? = some (f.src, f.tgt) := by
  unfold edgesFrom at h
  rw [List.mem_reverse, List.mem_filter] at h
  obtain ⟨hmem, hsrc⟩ := h
  unfold edgesIdx at hmem
  rcases List.mem_map.mp hmem with ⟨pr, hpr, rfl⟩
  rw [List.mem_enum_iff_getElem?] at hpr
  exact ⟨by simpa using hsrc, by simpa using hpr⟩

theorem edgesFrom_complete (g : RawGraph) (k u t : Nat) (h : g.edges[k]? = some (u, t)) :
    (⟨k, u, t⟩ : RawEdge) ∈ edgesFrom g u := by
  unfold edgesFrom
  rw [List.mem_reverse, List.mem_filter]
  refine ⟨?_, by simp⟩
  unfold edgesIdx
  exact List.mem_map.mpr ⟨(k, (u, t)), List.mem_enum_iff_getElem?.mpr (by simpa using h), rfl⟩

theorem filteredEdgesFrom_spec (g : RawGraph) (fOk : Nat → Bool) (u : Nat) (f : RawEdge)
    (h : f ∈ filteredEdgesFrom g fOk u) :
    f ∈ edgesFrom g u ∧ fOk u = true ∧ fOk f.tgt = true := by
  unfold filteredEdgesFrom at h
  split at h
  · next hok =>
    rcases List.mem_filter.mp h with ⟨hm, ht⟩
    exact ⟨hm, hok, ht⟩
  · cases h

theorem filteredEdgesFrom_complete (g : RawGraph) (fOk : Nat → Bool) (u : Nat) (f : RawEdge)
    (hm : f ∈ edgesFrom g u) (hu : fOk u = true) (ht : fOk f.tgt = true) :
    f ∈ filteredEdgesFrom g fOk u := by
  unfold filteredEdgesFrom
  rw [if_pos hu]
  exact List.mem_filter.mpr ⟨hm, ht⟩

theorem walkEmits_sound (g : RawGraph) (e : RawEdge) (path1 : List Nat)
    (out : List Nat × Nat) (h : out ∈ walkEmits g e path1) :
    ∃ f, f ∈ edgesFrom g e.tgt ∧ visible g f.tgt = true ∧ out = (path1 ++ [f.idx], f.tgt) := by
  unfold walkEmits at h
  rcases List.mem_filterMap.mp h with ⟨f, hf, hout⟩
  refine ⟨f, hf, ?_, ?_⟩
  · by_contra hv
    rw [if_neg hv] at hout
    cases hout
  · cases hv : visible g f.tgt with
    | false => rw [if_neg (by simp [hv])] at hout; cases hout
    | true =>
      rw [if_pos hv] at hout
      exact (Option.some_inj.mp hout).symm

theorem walkEmits_complete (g : RawGraph) (e : RawEdge) (path1 : List Nat)
    (f : RawEdge) (hf : f ∈ edgesFrom g e.tgt) (hv : visible g f.tgt = true) :
    (path1 ++ [f.idx], f.tgt) ∈ walkEmits g e path1 := by
  unfold walkEmits
  exact List.mem_filterMap.mpr ⟨f, hf, by rw [if_pos hv]⟩

theorem walk_sound (g : RawGraph) (fOk : Nat → Bool) :
    ∀ (fuel : Nat) (e : RawEdge) (path : List Nat) (out : List Nat × Nat),
      out ∈ walk g fOk fuel e path →
      ∃ l ns, out.1 = path ++ [e.idx] ++ l ∧
        EdgeChainN g e.tgt l ns out.2 ∧ l ≠ [] ∧
        visible g out.2 = true ∧ l.length ≤ fuel + 1 ∧
        ∀ j, j + 1 < ns.length → fOk (ns.getD j 0) = true := by
  intro fuel
  induction fuel with
  | zero =>
    intro e path out h
    rw [walk] at h
    obtain ⟨f, hf, hv, rfl⟩ := walkEmits_sound g e (path ++ [e.idx]) out h
    refine ⟨[f.idx], [f.tgt], by simp, ?_, by simp, hv, by simp, ?_⟩
    · exact ⟨((edgesFrom_spec g e.tgt f hf).2.trans (by
        rw [(edgesFrom_spec g e.tgt f hf).1])), rfl⟩
    · intro j hj
      simp at hj
  | succ fuel ih =>
    intro e path out h
    rw [walk] at h
    rcases List.mem_append.mp h with h | h
    · obtain ⟨f, hf, hv, rfl⟩ := walkEmits_sound g e (path ++ [e.idx]) out h
      refine ⟨[f.idx], [f.tgt], by simp, ?_, by simp, hv, by simp, ?_⟩
      · exact ⟨((edgesFrom_spec g e.tgt f hf).2.trans (by
          rw [(edgesFrom_spec g e.tgt f hf).1])), rfl⟩
      · intro j hj
        simp at hj
    · rcases List.mem_flatten.mp h with ⟨L, hL, hout⟩
      rcases List.mem_map.mp hL with ⟨f, hfmem, rfl⟩
      obtain ⟨hfe, hfu, hft⟩ := filteredEdgesFrom_spec g fOk e.tgt f hfmem
      obtain ⟨l', ns', hpath, hchain, hne, hvis, hlen, hOk⟩ := ih f (path ++ [e.idx]) out hout
      refine ⟨f.idx :: l', f.tgt :: ns', ?_, ?_, by simp, hvis, by simpa using hlen, ?_⟩
      · rw [hpath]
        simp
      · refine ⟨?_, hchain⟩
        have hsp := edgesFrom_spec g e.tgt f hfe
        rw [hsp.2]
        rw [hsp.1]
      · intro j hj
        cases j with
        | zero => exact hft
        | succ j =>
          refine hOk j ?_
          simpa using hj

theorem reconnect_walked_hidden (g : RawGraph) (c m : Nat)
    (hchain : ∃ ks ts, EdgeChainN g c ks ts m ∧ ks.length ≤ g.nodes.length)
    (hfOk : reconnectFilter g (reachFwd g (visibleReachable g c))
      (reachBwd g (visibleReachable g c)) m = true) :
    hiddenAt g m = true := by
  cases hhid : hiddenAt g m with
  | true => rfl
  | false =>
    exfalso
    have hvism : visible g m = true := by
      unfold visible
      unfold hiddenAt at hhid
      rw [hhid]
      rfl
    obtain ⟨ks, ts, hc, hl⟩ := hchain
    have hm : m ∈ reachFwd g [c] :=
      chain_mem_reachFwd g ks ts c m g.nodes.length [c] hc (List.mem_singleton.mpr rfl) hl
    have hvr : m ∈ visibleReachable g c := by
      unfold visibleReachable
      exact List.mem_filter.mpr ⟨hm, hvism⟩
    have hfwd : m ∈ reachFwd g (visibleReachable g c) :=
      subset_iterStep _ (subset_stepFwd g.edges) (stepFwd_mono g.edges) _ _ hvr
    unfold reconnectFilter at hfOk
    rw [Bool.and_eq_true, Bool.and_eq_true] at hfOk
    have hcf := hfOk.1.2
    rw [Bool.not_eq_true'] at hcf
    have hct : (reachFwd g (visibleReachable g c)).contains m = true :=
      (contains_iff_mem _ _).mpr hfwd
    rw [hcf] at hct
    cases hct

theorem reconnectFromEdge_sound (g : RawGraph) (e : RawEdge) (out : List Nat × Nat)
    (h : out ∈ reconnectFromEdge g e) :
    hiddenAt g e.tgt = true ∧
    out ∈ walk g (reconnectFilter g (reachFwd g (visibleReachable g e.tgt))
      (reachBwd g (visibleReachable g e.tgt))) g.nodes.length e [] := by
  simp only [reconnectFromEdge] at h
  split at h
  · next hhid =>
    split at h
    · cases h
    · exact ⟨hhid, h⟩
  · cases h

theorem reconnectFromEdge_eq (g : RawGraph) (e : RawEdge)
    (h1 : hiddenAt g e.tgt = true)
    (h2 : (reachFwd g (visibleReachable g e.tgt)).isEmpty = false) :
    reconnectFromEdge g e =
      walk g (reconnectFilter g (reachFwd g (visibleReachable g e.tgt))
        (reachBwd g (visibleReachable g e.tgt))) g.nodes.length e [] := by
  simp only [reconnectFromEdge]
  rw [if_pos h1, if_neg (by rw [h2]; simp)]

theorem toVisible_edge_cases (g : RawGraph) (er : VEdge) (h : er ∈ (toVisible g).edges) :
    (∃ k, er.w = .Direct k) ∨
    ∃ a e out, a ∈ visList g ∧ e ∈ edgesFrom g a ∧ out ∈ reconnectFromEdge g e ∧
      er = ⟨vIdx g a, vIdx g out.2, .Indirect out.1⟩ := by
  simp only [toVisible] at h
  rcases List.mem_append.mp h with h | h
  · left
    rcases List.mem_filterMap.mp h with ⟨pr, _, hout⟩
    split at hout
    · exact ⟨pr.1, by rw [(Option.some_inj.mp hout).symm]⟩
    · cases hout
  · right
    rcases List.mem_flatten.mp h with ⟨L, hL, hout⟩
    rcases List.mem_map.mp hL with ⟨a, ha, rfl⟩
    rcases List.mem_flatten.mp hout with ⟨L2, hL2, hout2⟩
    rcases List.mem_map.mp hL2 with ⟨e, he, rfl⟩
    rcases List.mem_map.mp hout2 with ⟨out, hom, rfl⟩
    exact ⟨a, e, out, ha, he, hom, rfl⟩

theorem toVisible_indirect_complete (g : RawGraph) (a : Nat) (e : RawEdge)
    (out : List Nat × Nat) (ha : a ∈ visList g) (he : e ∈ edgesFrom g a)
    (hout : out ∈ reconnectFromEdge g e) :
    (⟨vIdx g a, vIdx g out.2, .Indirect out.1⟩ : VEdge) ∈ (toVisible g).edges := by
  simp only [toVisible]
  refine List.mem_append_right _ ?_
  refine List.mem_flatten.mpr ⟨_, List.mem_map.mpr ⟨a, ha, rfl⟩, ?_⟩
  refine List.mem_flatten.mpr ⟨_, List.mem_map.mpr ⟨e, he, rfl⟩, ?_⟩
  exact List.mem_map.mpr ⟨out, hout, rfl⟩

theorem toVisible_nodes_idx (g : RawGraph) (a : Nat) (ha : a ∈ visList g) :
    ((toVisible g).nodes.getD (vIdx g a) defaultVisibleNode).idx = a := by
  simp only [toVisible, vIdx]
  have hlt : (visList g).indexOf a < (visList g).length := List.indexOf_lt_length.mpr ha
  rw [List.getD_eq_getElem?_getD, List.getElem?_map, List.getElem?_eq_getElem hlt]
  simp [List.getElem_indexOf]

theorem walk_complete (g : RawGraph) (fOk : Nat → Bool) :
    ∀ (l ns : List Nat) (C : Nat) (fuel : Nat) (e : RawEdge) (path : List Nat),
      EdgeChainN g e.tgt l ns C → (∀ m ∈ e.tgt :: ns, fOk m = true) → l.length ≤ fuel →
      ∀ (kfin Dn : Nat), g.edges[kfin]? = some (C, Dn) → visible g Dn = true →
      ∃ p, (p, Dn) ∈ walk g fOk fuel e path := by
  intro l
  induction l with
  | nil =>
    intro ns C fuel e path hchain hOk _ kfin Dn hedge hvis
    cases ns with
    | cons t ts => cases hchain
    | nil =>
      cases hchain
      have hf : (⟨kfin, e.tgt, Dn⟩ : RawEdge) ∈ edgesFrom g e.tgt :=
        edgesFrom_complete g kfin e.tgt Dn hedge
      have hm := walkEmits_complete g e (path ++ [e.idx]) ⟨kfin, e.tgt, Dn⟩ hf hvis
      refine ⟨path ++ [e.idx] ++ [kfin], ?_⟩
      cases fuel with
      | zero => rw [walk]; exact hm
      | succ fuel => rw [walk]; exact List.mem_append_left _ hm
  | cons k l ih =>
    intro ns C fuel e path hchain hOk hlen kfin Dn hedge hvis
    cases ns with
    | nil => cases hchain
    | cons t ts =>
      obtain ⟨h0, hrest⟩ := hchain
      cases fuel with
      | zero => exact absurd hlen (by simp)
      | succ fuel =>
        have hf : (⟨k, e.tgt, t⟩ : RawEdge) ∈ edgesFrom g e.tgt :=
          edgesFrom_complete g k e.tgt t h0
        have hfil : (⟨k, e.tgt, t⟩ : RawEdge) ∈ filteredEdgesFrom g fOk e.tgt :=
          filteredEdgesFrom_complete g fOk e.tgt _ hf
            (hOk e.tgt (List.mem_cons_self _ _))
            (hOk t (List.mem_cons_of_mem _ (List.mem_cons_self _ _)))
        obtain ⟨p, hp⟩ := ih ts C fuel ⟨k, e.tgt, t⟩ (path ++ [e.idx]) hrest
          (fun m hm => hOk m (List.mem_cons_of_mem _ hm)) (by simpa using hlen)
          kfin Dn hedge hvis
        refine ⟨p, ?_⟩
        rw [walk]
        refine List.mem_append_right _ ?_
        exact List.mem_flatten.mpr ⟨_, List.mem_map.mpr ⟨⟨k, e.tgt, t⟩, hfil, rfl⟩, hp⟩

end New

theorem nodup_bounded_length (L : List Nat) (n : Nat) (hn : L.Nodup)
    (hlt : ∀ m ∈ L, m < n) : L.length ≤ n := by
  have h1 : L.toFinset.card = L.length := List.toFinset_card_of_nodup hn
  have h2 : L.toFinset ⊆ Finset.range n := by
    intro a ha
    rw [List.mem_toFinset] at ha
    rw [Finset.mem_range]
    exact hlt a ha
  have h3 := Finset.card_le_card h2
  rw [h1, Finset.card_range] at h3
  exact h3

/-- C1 (amended): for every raw graph, if visible node `A` has a hidden
child `B`, and from `B` a path of hidden nodes (none of which is
forward-reachable from any visible node reachable from `B`, and all
pairwise distinct) leads to a hidden node `C` with a visible child `D`,
then the materialized visible graph contains at least one `Indirect`
edge from `A` to `D` — not exactly one: when several such hidden paths
exist the edge is duplicated once per path (see the counterexample). -/
theorem C1_amended (g : New.RawGraph) (A B C D kAB kCD : Nat) (l ns : List Nat)
    (hA : New.visible g A = true)
    (hD : New.visible g D = true)
    (hAB : g.edges[kAB]? = some (A, B))
    (hchain : New.EdgeChainN g B l ns C)
    (hCD : g.edges[kCD]? = some (C, D))
    (hhid : ∀ m ∈ B :: ns, New.hiddenAt g m = true)
    (hnotfwd : ∀ m ∈ B :: ns, (New.reachFwd g (New.visibleReachable g B)).contains m = false)
    (hlt : ∀ m ∈ B :: ns, m < g.nodes.length)
    (hnodup : (B :: ns).Nodup) :
    ∃ pth, (⟨New.vIdx g A, New.vIdx g D, .Indirect pth⟩ : New.VEdge) ∈
      (New.toVisible g).edges := by
  have hBhid : New.hiddenAt g B = true := hhid B (List.mem_cons_self _ _)
  have hlens := New.chainN_lengths g l ns B C hchain
  have hcard : (B :: ns).length ≤ g.nodes.length :=
    nodup_bounded_length (B :: ns) g.nodes.length hnodup hlt
  have hlnle : l.length + 1 ≤ g.nodes.length := by
    rw [hlens]
    simpa using hcard
  have hfull : New.EdgeChainN g B (l ++ [kCD]) (ns ++ [D]) D :=
    New.chainN_snoc g l ns B C kCD D hchain hCD
  have hDreach : D ∈ New.reachFwd g [B] :=
    New.chain_mem_reachFwd g (l ++ [kCD]) (ns ++ [D]) B D g.nodes.length [B] hfull
      (List.mem_singleton.mpr rfl) (by simp only [List.length_append, List.length_singleton]; omega)
  have hDvr : D ∈ New.visibleReachable g B := by
    unfold New.visibleReachable
    exact List.mem_filter.mpr ⟨hDreach, hD⟩
  have hfwdne : (New.reachFwd g (New.visibleReachable g B)).isEmpty = false := by
    rw [List.isEmpty_eq_false]
    exact List.ne_nil_of_mem
      (subset_iterStep _ (subset_stepFwd g.edges) (stepFwd_mono g.edges) _ _ hDvr)
  have hOk : ∀ m ∈ B :: ns,
      New.reconnectFilter g (New.reachFwd g (New.visibleReachable g B))
        (New.reachBwd g (New.visibleReachable g B)) m = true := by
    intro m hm
    unfold New.reconnectFilter
    rw [Bool.and_eq_true, Bool.and_eq_true]
    refine ⟨⟨by simp [hlt m hm], by rw [hnotfwd m hm]; rfl⟩, ?_⟩
    have hm' : m = B ∨ m ∈ ns := List.mem_cons.mp hm
    obtain ⟨ks', ts', hc', hl'⟩ := New.chainN_mem_suffix g l ns B C m hchain hm'
    have hc'' : New.EdgeChainN g m (ks' ++ [kCD]) (ts' ++ [D]) D :=
      New.chainN_snoc g ks' ts' m C kCD D hc' hCD
    have hmem : m ∈ New.reachBwd g (New.visibleReachable g B) :=
      New.chain_mem_reachBwd g (ks' ++ [kCD]) (ts' ++ [D]) m D g.nodes.length
        (New.visibleReachable g B) hc'' hDvr
        (by simp only [List.length_append, List.length_singleton]; omega)
    exact (contains_iff_mem _ _).mpr hmem
  have e0mem : (⟨kAB, A, B⟩ : New.RawEdge) ∈ New.edgesFrom g A :=
    New.edgesFrom_complete g kAB A B hAB
  obtain ⟨p, hp⟩ := New.walk_complete g
    (New.reconnectFilter g (New.reachFwd g (New.visibleReachable g B))
      (New.reachBwd g (New.visibleReachable g B)))
    l ns C g.nodes.length ⟨kAB, A, B⟩ [] hchain hOk (by omega) kCD D hCD hD
  have hrc : (p, D) ∈ New.reconnectFromEdge g ⟨kAB, A, B⟩ := by
    rw [New.reconnectFromEdge_eq g ⟨kAB, A, B⟩ hBhid hfwdne]
    exact hp
  have hAv : A ∈ New.visList g :=
    (New.mem_visList g A).mpr ⟨New.visible_lt_length g A hA, hA⟩
  exact ⟨p, New.toVisible_indirect_complete g A ⟨kAB, A, B⟩ (p, D) hAv e0mem hrc⟩

/-- C10: every `Indirect` edge of the materialized visible graph carries
a well-formed raw-edge path: the path is non-empty and consecutive, its
first edge starts at the (visible) raw node the edge's source stands
for, its last edge ends at the (visible) raw node the edge's target
stands for, and every intermediate node along the path is hidden. -/
theorem C10_indirect_path_wf (g : New.RawGraph) (er : New.VEdge) (pth : List Nat)
    (hmem : er ∈ (New.toVisible g).edges) (hw : er.w = .Indirect pth) :
    pth ≠ [] ∧
    ∃ ns, New.EdgeChainN g
        (((New.toVisible g).nodes.getD er.src New.defaultVisibleNode).idx) pth ns
        (((New.toVisible g).nodes.getD er.tgt New.defaultVisibleNode).idx) ∧
      ns.length = pth.length ∧
      New.visible g (((New.toVisible g).nodes.getD er.src New.defaultVisibleNode).idx) = true ∧
      New.visible g (((New.toVisible g).nodes.getD er.tgt New.defaultVisibleNode).idx) = true ∧
      ∀ j, j + 1 < ns.length → New.hiddenAt g (ns.getD j 0) = true := by
  rcases New.toVisible_edge_cases g er hmem with ⟨k, hk⟩ | ⟨a, e, out, ha, he, hout, rfl⟩
  · rw [hk] at hw
    cases hw
  · simp only at hw
    cases hw
    obtain ⟨hhid, hwalk⟩ := New.reconnectFromEdge_sound g e out hout
    obtain ⟨l, ns', hpath, hchain, hne, hvis, hlen, hOk⟩ :=
      New.walk_sound g _ g.nodes.length e [] out hwalk
    have hsp := New.edgesFrom_spec g a e he
    have hvisa : New.visible g a = true := ((New.mem_visList g a).mp ha).2
    have hb : out.2 ∈ New.visList g :=
      (New.mem_visList g out.2).mpr ⟨New.visible_lt_length g out.2 hvis, hvis⟩
    have hchainlen := New.chainN_lengths g l ns' e.tgt out.2 hchain
    simp only [New.toVisible_nodes_idx g a ha, New.toVisible_nodes_idx g out.2 hb]
    refine ⟨by rw [hpath]; simp, e.tgt :: ns', ?_, ?_, hvisa, hvis, ?_⟩
    · rw [hpath]
      simp only [List.nil_append]
      exact ⟨by rw [hsp.2, hsp.1], hchain⟩
    · rw [hpath]
      simp [hchainlen]
    · intro j hj
      cases j with
      | zero => simpa using hhid
      | succ j =>
        have hj' : j + 1 < ns'.length := by simpa using hj
        have hjlt : j < ns'.length := Nat.lt_of_succ_lt hj'
        have hlenl : l.length = ns'.length := hchainlen
        have htake := New.chainN_take g l ns' e.tgt out.2 j hchain hjlt
        refine New.reconnect_walked_hidden g e.tgt (ns'.getD j 0)
          ⟨l.take (j + 1), ns'.take (j + 1), htake, ?_⟩ ?_
        · have h1 : (l.take (j + 1)).length ≤ j + 1 := by
            simpa using List.length_take_le (j + 1) l
          have h2 : j + 1 < l.length := by omega
          omega
        · simpa using hOk j hj'

/-- Witness for the amended C1: the three-node chain `chainABD`
(`0 → 1 → 2` with node `1` hidden). -/
theorem C1_amended_witness :
    New.visible chainABD 0 = true ∧ New.visible chainABD 2 = true ∧
    chainABD.edges[0]? = some (0, 1) ∧ New.EdgeChainN chainABD 1 [] [] 1 ∧
    chainABD.edges[1]? = some (1, 2) ∧
    (∀ m ∈ [1], New.hiddenAt chainABD m = true) ∧
    (∀ m ∈ [1], (New.reachFwd chainABD (New.visibleReachable chainABD 1)).contains m = false) ∧
    (∀ m ∈ [1], m < chainABD.nodes.length) ∧ ([1] : List Nat).Nodup ∧
    ∃ pth, (⟨New.vIdx chainABD 0, New.vIdx chainABD 2, .Indirect pth⟩ : New.VEdge) ∈
      (New.toVisible chainABD).edges :=
  ⟨by decide, by decide, by decide, rfl, by decide, by decide, by decide, by decide, by decide,
    C1_amended chainABD 0 1 1 2 0 1 [] [] (by decide) (by decide) (by decide) rfl (by decide)
      (by decide) (by decide) (by decide) (by decide)⟩

/-- Witness for C10: a concrete `Indirect` edge of the materialized
diamond graph. -/
theorem C10_indirect_path_wf_witness :
    ((⟨0, 1, .Indirect [0, 2, 4, 5]⟩ : New.VEdge) ∈ (New.toVisible cexDiamond).edges) ∧
    (([0, 2, 4, 5] : List Nat) ≠ [] ∧
      ∃ ns, New.EdgeChainN cexDiamond
          (((New.toVisible cexDiamond).nodes.getD 0 New.defaultVisibleNode).idx)
          [0, 2, 4, 5] ns
          (((New.toVisible cexDiamond).nodes.getD 1 New.defaultVisibleNode).idx) ∧
        ns.length = ([0, 2, 4, 5] : List Nat).length ∧
        New.visible cexDiamond
          (((New.toVisible cexDiamond).nodes.getD 0 New.defaultVisibleNode).idx) = true ∧
        New.visible cexDiamond
          (((New.toVisible cexDiamond).nodes.getD 1 New.defaultVisibleNode).idx) = true ∧
        ∀ j, j + 1 < ns.length → New.hiddenAt cexDiamond (ns.getD j 0) = true) :=
  ⟨by decide,
    C10_indirect_path_wf cexDiamond ⟨0, 1, .Indirect [0, 2, 4, 5]⟩ [0, 2, 4, 5] (by decide) rfl⟩

/-! ## Lemmas for the amended C2 (cost ranking and MaxInsts) -/

theorem pairwise_getLast {α : Type} {R : α → α → Prop} :
    ∀ (l : List α) (h : l ≠ []), List.Pairwise R l →
      ∀ x ∈ l, x = l.getLast h ∨ R x (l.getLast h) := by
  intro l
  induction l with
  | nil => intro h; cases h rfl
  | cons a l ih =>
    intro h hp x hx
    cases l with
    | nil =>
      rcases List.mem_singleton.mp hx with rfl
      left
      rfl
    | cons b l' =>
      rw [List.getLast_cons (List.cons_ne_nil b l')]
      rcases List.mem_cons.mp hx with rfl | hx
      · right
        exact (List.pairwise_cons.mp hp).1 _ (List.getLast_mem (List.cons_ne_nil b l'))
      · exact ih (List.cons_ne_nil b l') (List.pairwise_cons.mp hp).2 x hx

theorem map_id_of_mem {α : Type} (l : List α) (f : α → α) (h : ∀ x ∈ l, f x = x) :
    l.map f = l := by
  induction l with
  | nil => rfl
  | cons a l ih =>
    rw [List.map_cons, h a (List.mem_cons_self a l),
      ih (fun x hx => h x (List.mem_cons_of_mem _ hx))]

theorem filter_mem_sublist :
    ∀ {s l : List Nat}, s.Sublist l → l.Nodup →
      l.filter (fun a => decide (a ∈ s)) = s := by
  intro s l h
  induction h with
  | slnil => intro _; rfl
  | @cons s' l' a h ih =>
    intro hnd
    rw [List.filter_cons]
    rw [if_neg ?_]
    · exact ih (List.Nodup.of_cons hnd)
    · have ha : a ∉ l' := (List.nodup_cons.mp hnd).1
      simp only [decide_eq_true_eq]
      intro hmem
      exact ha (h.subset hmem)
  | @cons₂ s' l' a h ih =>
    intro hnd
    rw [List.filter_cons, if_pos (by simp)]
    have ha : a ∉ l' := (List.nodup_cons.mp hnd).1
    have hcg : l'.filter (fun x => decide (x ∈ a :: s')) = l'.filter (fun x => decide (x ∈ s')) := by
      apply List.filter_congr
      intro x hx
      have hxa : x ≠ a := fun hxa => ha (hxa ▸ hx)
      simp [List.mem_cons, hxa]
    rw [hcg, ih (List.Nodup.of_cons hnd)]

theorem take_ne_nil_of_ne_nil {α : Type} (l : List α) (n : Nat) (hl : l ≠ []) (hn : 1 ≤ n) :
    l.take n ≠ [] := by
  cases l with
  | nil => cases hl rfl
  | cons a l =>
    cases n with
    | zero => cases hn
    | succ n => simp

namespace Old

theorem visibleAt_lt_length (g : InstGraph) (i : Nat) (h : visibleAt g i = true) :
    i < g.nodes.length := by
  by_contra hge
  unfold visibleAt nodeAt at h
  rw [List.getD_eq_getElem?_getD, List.getElem?_eq_none (Nat.le_of_not_lt hge)] at h
  cases h

end Old

namespace Old

theorem retain_nodes_length (g : InstGraph) (p : NodeData → Bool) :
    (g.retain_nodes p).nodes.length = g.nodes.length := by
  simp [InstGraph.retain_nodes]

theorem retain_nodes_eq_self (h : InstGraph) (pr : NodeData → Bool)
    (hall : ∀ x ∈ h.nodes, pr x = true ∨ x.visible = false) : h.retain_nodes pr = h := by
  unfold InstGraph.retain_nodes
  rw [map_id_of_mem]
  intro x hx
  cases hpx : pr x with
  | true => rw [if_pos rfl]
  | false =>
    rw [if_neg Bool.false_ne_true]
    rcases hall x hx with hp | hv
    · rw [hpx] at hp; cases hp
    · exact set_visible_false_id x hv

theorem retain_nodes_cost_rank (g : InstGraph) (p : NodeData → Bool) (i : Nat) :
    (nodeAt (g.retain_nodes p) i).cost_rank = (nodeAt g i).cost_rank := by
  rw [retain_nodes_nodeAt]
  split <;> rfl

theorem keep_filter_eq (g : InstGraph)
    (hmem : ∀ i ∈ g.cost_ranked_node_indices, i < g.nodes.length) :
    g.cost_ranked_node_indices.filter
      (fun i => ((List.range g.nodes.length).filter (fun i => visibleAt g i)).contains i) =
    g.cost_ranked_node_indices.filter (fun j => visibleAt g j) := by
  apply List.filter_congr
  intro x hx
  cases hv : visibleAt g x with
  | true =>
    exact (contains_iff_mem _ _).mpr
      (List.mem_filter.mpr ⟨List.mem_range.mpr (hmem x hx), hv⟩)
  | false =>
    cases hc : ((List.range g.nodes.length).filter (fun i => visibleAt g i)).contains x with
    | false => rfl
    | true =>
      have hmm := List.mem_filter.mp ((contains_iff_mem _ _).mp hc)
      rw [hmm.2] at hv
      cases hv

end Old

/-- C2 (amended): on a well-formed raw graph state with at least one
visible node and `n ≥ 1`, `MaxInsts(n)` keeps visible exactly the first
`n` currently visible nodes in cost-rank order, touches no hidden node
and nothing but visibility flags; the cost-rank order breaks cost ties
by the lower *line number* (not the lower origin index — see the
counterexample); and a second application of `MaxInsts(n)` returns the
very same graph state. -/
theorem C2_amended (g : Old.InstGraph) (n : Nat) (hWF : Old.WF g) (hn : 1 ≤ n)
    (hvis : ∃ i, i < g.nodes.length ∧ Old.visibleAt g i = true) :
    ∃ g', g.keep_n_most_costly n = some g' ∧
      (∀ i, Old.visibleAt g' i = true ↔
        i ∈ (g.cost_ranked_node_indices.filter (fun j => Old.visibleAt g j)).take n) ∧
      (∀ i, Old.visibleAt g i = false → Old.nodeAt g' i = Old.nodeAt g i) ∧
      Old.FrameOnlyVisibility g g' ∧
      (∀ i j, i < g.nodes.length → j < g.nodes.length → i ≠ j →
        (Old.nodeAt g i).cost = (Old.nodeAt g j).cost →
        ((Old.nodeAt g i).cost_rank < (Old.nodeAt g j).cost_rank ↔
          (Old.nodeAt g i).line_nr < (Old.nodeAt g j).line_nr)) ∧
      g'.keep_n_most_costly n = some g' := by
  obtain ⟨hperm, hrankpos, hlines, hsorted⟩ := hWF
  obtain ⟨i0, hi0len, hi0vis⟩ := hvis
  have hnd : g.cost_ranked_node_indices.Nodup :=
    hperm.nodup_iff.mpr (List.nodup_range g.nodes.length)
  have hmemL : ∀ i, i ∈ g.cost_ranked_node_indices ↔ i < g.nodes.length := by
    intro i
    rw [hperm.mem_iff, List.mem_range]
  have hple : ∀ (k : Nat) (hk : k < g.cost_ranked_node_indices.length),
      (Old.nodeAt g (g.cost_ranked_node_indices.get ⟨k, hk⟩)).cost_rank = k := by
    intro k hk
    have := hrankpos k hk
    rwa [List.getD_eq_getElem?_getD, List.getElem?_eq_getElem hk] at this
  have hpair : List.Pairwise
      (fun a b => (Old.nodeAt g a).cost_rank < (Old.nodeAt g b).cost_rank)
      g.cost_ranked_node_indices := by
    rw [List.pairwise_iff_get]
    intro i j hij
    rw [hple i.val i.isLt, hple j.val j.isLt]
    exact hij
  have hfil_eq := Old.keep_filter_eq g (fun i hi => (hmemL i).mp hi)
  set fil := g.cost_ranked_node_indices.filter (fun j => Old.visibleAt g j) with hfildef
  have hfilmem : ∀ i, i ∈ fil ↔ (i < g.nodes.length ∧ Old.visibleAt g i = true) := by
    intro i
    rw [hfildef, List.mem_filter, hmemL]
  have hfilne : fil ≠ [] :=
    List.ne_nil_of_mem ((hfilmem i0).mpr ⟨hi0len, hi0vis⟩)
  have htn : fil.take n ≠ [] := take_ne_nil_of_ne_nil fil n hfilne hn
  have hLast : (fil.take n).getLast? = some ((fil.take n).getLast htn) :=
    List.getLast?_eq_getLast _ htn
  set nth := (fil.take n).getLast htn with hnthdef
  set r := (Old.nodeAt g nth).cost_rank with hrdef
  set p : Old.NodeData → Bool :=
    fun nd => nd.visible && decide (nd.cost_rank ≤ r) with hpdef
  have keq : g.keep_n_most_costly n = some (g.retain_nodes p) := by
    simp only [Old.InstGraph.keep_n_most_costly]
    rw [hfil_eq, hLast]
  have hvg' : ∀ i, Old.visibleAt (g.retain_nodes p) i =
      (Old.visibleAt g i && decide ((Old.nodeAt g i).cost_rank ≤ r)) := by
    intro i
    rw [Old.retain_nodes_visibleAt, hpdef]
    cases hv : Old.visibleAt g i with
    | false => simp [Old.visibleAt] at hv; simp [Old.visibleAt, hv]
    | true => simp [Old.visibleAt] at hv; simp [Old.visibleAt, hv]
  have hfilpair : List.Pairwise
      (fun a b => (Old.nodeAt g a).cost_rank < (Old.nodeAt g b).cost_rank) fil :=
    List.Pairwise.sublist (List.filter_sublist _) hpair
  have hnth_mem_take : nth ∈ fil.take n := List.getLast_mem htn
  have hnth_mem : nth ∈ fil := (List.take_sublist n fil).subset hnth_mem_take
  have hcross : ∀ a ∈ fil.take n, ∀ b ∈ fil.drop n,
      (Old.nodeAt g a).cost_rank < (Old.nodeAt g b).cost_rank := by
    have h2 := hfilpair
    rw [← List.take_append_drop n fil] at h2
    exact (List.pairwise_append.mp h2).2.2
  have hmain : ∀ i, Old.visibleAt (g.retain_nodes p) i = true ↔ i ∈ fil.take n := by
    intro i
    rw [hvg' i, Bool.and_eq_true, decide_eq_true_eq]
    constructor
    · rintro ⟨hv, hd⟩
      have hilen : i < g.nodes.length := Old.visibleAt_lt_length g i hv
      have hifil : i ∈ fil := (hfilmem i).mpr ⟨hilen, hv⟩
      rcases List.mem_append.mp (by rw [List.take_append_drop n fil]; exact hifil) with h | h
      · exact h
      · exact absurd hd (by
          have := hcross nth hnth_mem_take i h
          omega)
    · intro hi
      have hifil : i ∈ fil := (List.take_sublist n fil).subset hi
      have hv := ((hfilmem i).mp hifil).2
      refine ⟨hv, ?_⟩
      have htp : List.Pairwise
          (fun a b => (Old.nodeAt g a).cost_rank < (Old.nodeAt g b).cost_rank)
          (fil.take n) :=
        List.Pairwise.sublist (List.take_sublist n fil) hfilpair
      rcases pairwise_getLast (fil.take n) htn htp i hi with rfl | hlt
      · exact Nat.le_refl _
      · exact Nat.le_of_lt hlt
  refine ⟨g.retain_nodes p, keq, hmain, ?_, Old.retain_nodes_frame g p, ?_, ?_⟩
  · intro i hv
    rw [Old.retain_nodes_nodeAt, if_neg ?_]
    · exact Old.set_visible_false_id _ (by rw [← hv]; rfl)
    · rw [hpdef]
      simp only [Bool.and_eq_true]
      rintro ⟨hvis', -⟩
      rw [show (Old.nodeAt g i).visible = Old.visibleAt g i from rfl, hv] at hvis'
      cases hvis'
  · intro i j hilen hjlen hne hcost
    obtain ⟨ki, hki⟩ := List.mem_iff_get.mp ((hmemL i).mpr hilen)
    obtain ⟨kj, hkj⟩ := List.mem_iff_get.mp ((hmemL j).mpr hjlen)
    have hri : (Old.nodeAt g i).cost_rank = ki.val := by rw [← hki]; exact hple ki.val ki.isLt
    have hrj : (Old.nodeAt g j).cost_rank = kj.val := by rw [← hkj]; exact hple kj.val kj.isLt
    have hdir : ∀ (x y : Nat) (kx ky : Fin g.cost_ranked_node_indices.length),
        g.cost_ranked_node_indices.get kx = x → g.cost_ranked_node_indices.get ky = y →
        x ≠ y → (Old.nodeAt g x).cost = (Old.nodeAt g y).cost →
        x < g.nodes.length → y < g.nodes.length →
        kx.val < ky.val → (Old.nodeAt g x).line_nr < (Old.nodeAt g y).line_nr := by
      intro x y kx ky hkx hky hxy hcxy hxlen hylen hklt
      have hle := List.pairwise_iff_get.mp hsorted kx ky hklt
      rw [hkx, hky] at hle
      rcases hle with hlt | ⟨-, hle⟩
      · rw [hcxy] at hlt
        exact absurd hlt (lt_irrefl _)
      · exact Nat.lt_of_le_of_ne hle (hlines x hxlen y hylen hxy)
    constructor
    · intro hrlt
      rw [hri, hrj] at hrlt
      exact hdir i j ki kj hki hkj hne hcost hilen hjlen hrlt
    · intro hllt
      rcases Nat.lt_trichotomy ki.val kj.val with hk | hk | hk
      · rw [hri, hrj]
        exact hk
      · exfalso
        apply hne
        rw [← hki, ← hkj]
        congr 1
        exact Fin.ext hk
      · exfalso
        have := hdir j i kj ki hkj hki (Ne.symm hne) hcost.symm hjlen hilen hk
        omega
  · have hmem' : ∀ i ∈ (g.retain_nodes p).cost_ranked_node_indices,
        i < (g.retain_nodes p).nodes.length := by
      intro i hi
      rw [Old.retain_nodes_length]
      exact (hmemL i).mp hi
    have hfil_eq' := Old.keep_filter_eq (g.retain_nodes p) hmem'
    have hvdec : ∀ x ∈ g.cost_ranked_node_indices,
        Old.visibleAt (g.retain_nodes p) x = decide (x ∈ fil.take n) := by
      intro x _
      cases hb : Old.visibleAt (g.retain_nodes p) x with
      | true =>
        have := (hmain x).mp hb
        simp [this]
      | false =>
        have : ¬ x ∈ fil.take n := fun hmm => by
          rw [(hmain x).mpr hmm] at hb
          cases hb
        simp [this]
    have hfil2 : (g.retain_nodes p).cost_ranked_node_indices.filter
        (fun j => Old.visibleAt (g.retain_nodes p) j) = fil.take n := by
      show g.cost_ranked_node_indices.filter
        (fun j => Old.visibleAt (g.retain_nodes p) j) = fil.take n
      rw [List.filter_congr hvdec]
      exact filter_mem_sublist
        ((List.take_sublist n fil).trans (List.filter_sublist _)) hnd
    have htake2 : (fil.take n).take n = fil.take n := by
      rw [List.take_take, Nat.min_self]
    have hrank2 : (Old.nodeAt (g.retain_nodes p) nth).cost_rank = r :=
      Old.retain_nodes_cost_rank g p nth
    have keq2 : (g.retain_nodes p).keep_n_most_costly n =
        some ((g.retain_nodes p).retain_nodes
          (fun nd => nd.visible && decide (nd.cost_rank ≤ r))) := by
      simp only [Old.InstGraph.keep_n_most_costly]
      rw [hfil_eq', hfil2, htake2, hLast]
      simp only [hrank2]
    rw [keq2]
    congr 1
    apply Old.retain_nodes_eq_self
    intro x hx
    cases hxv : x.visible with
    | false => exact Or.inr rfl
    | true =>
      left
      obtain ⟨ix, hix⟩ := List.mem_iff_get.mp hx
      have hixlen : ix.val < g.nodes.length := by
        have h1 : ix.val < (g.retain_nodes p).nodes.length := ix.isLt
        have h2 := Old.retain_nodes_length g p
        omega
      have hnodeAt : Old.nodeAt (g.retain_nodes p) ix.val = x := by
        unfold Old.nodeAt
        rw [List.getD_eq_getElem?_getD, List.getElem?_eq_getElem ix.isLt]
        rw [List.get_eq_getElem] at hix
        exact hix
      have hvx : Old.visibleAt (g.retain_nodes p) ix.val = true := by
        unfold Old.visibleAt
        rw [hnodeAt, hxv]
      have hrle : (Old.nodeAt g ix.val).cost_rank ≤ r := by
        have hveq := (hvg' ix.val)
        rw [hvx] at hveq
        have hveq2 := hveq.symm
        rw [Bool.and_eq_true, decide_eq_true_eq] at hveq2
        exact hveq2.2
      have hxrank : x.cost_rank ≤ r := by
        have hrr := Old.retain_nodes_cost_rank g p ix.val
        rw [hnodeAt] at hrr
        omega
      simp [hxv, hxrank]

/-- Witness for the amended C2: the concrete well-formed two-node graph
`c2w` with `n = 1`. -/
theorem C2_amended_witness :
    Old.WF c2w ∧ (1 : Nat) ≤ 1 ∧
    (∃ i, i < c2w.nodes.length ∧ Old.visibleAt c2w i = true) ∧
    (∃ g', c2w.keep_n_most_costly 1 = some g' ∧
      (∀ i, Old.visibleAt g' i = true ↔
        i ∈ (c2w.cost_ranked_node_indices.filter (fun j => Old.visibleAt c2w j)).take 1) ∧
      (∀ i, Old.visibleAt c2w i = false → Old.nodeAt g' i = Old.nodeAt c2w i) ∧
      Old.FrameOnlyVisibility c2w g' ∧
      (∀ i j, i < c2w.nodes.length → j < c2w.nodes.length → i ≠ j →
        (Old.nodeAt c2w i).cost = (Old.nodeAt c2w j).cost →
        ((Old.nodeAt c2w i).cost_rank < (Old.nodeAt c2w j).cost_rank ↔
          (Old.nodeAt c2w i).line_nr < (Old.nodeAt c2w j).line_nr)) ∧
      g'.keep_n_most_costly 1 = some g') :=
  ⟨by decide, by decide, ⟨0, by decide, by decide⟩,
    C2_amended c2w 1 (by decide) (by decide) ⟨0, by decide, by decide⟩⟩

/-! ## Construction establishes well-formedness (supports the amended C2) -/

namespace Old

theorem getD_set_ne (l : List NodeData) (r i : Nat) (x : NodeData) (h : r ≠ i) :
    (l.set r x).getD i default = l.getD i default := by
  rw [List.getD_eq_getElem?_getD, List.getD_eq_getElem?_getD, List.getElem?_set, if_neg h]

theorem getD_set_self (l : List NodeData) (r : Nat) (x : NodeData) (h : r < l.length) :
    (l.set r x).getD r default = x := by
  rw [List.getD_eq_getElem?_getD, List.getElem?_set, if_pos rfl, if_pos h]
  rfl

theorem assignRanks_getD_not_mem :
    ∀ (rs : List Nat) (k : Nat) (nds : List NodeData) (i : Nat), i ∉ rs →
      (assignRanks nds rs k).getD i default = nds.getD i default := by
  intro rs
  induction rs with
  | nil => intro k nds i _; rfl
  | cons r rs ih =>
    intro k nds i hi
    rw [assignRanks]
    rw [ih (k + 1) (nds.set r { nds.getD r default with cost_rank := k }) i
      (fun hm => hi (List.mem_cons_of_mem r hm))]
    exact getD_set_ne nds r i _ (fun hri => hi (hri ▸ List.mem_cons_self r rs))

theorem assignRanks_rank :
    ∀ (rs : List Nat) (nds : List NodeData) (k0 : Nat), rs.Nodup →
      (∀ r ∈ rs, r < nds.length) → ∀ j, j < rs.length →
      ((assignRanks nds rs k0).getD (rs.getD j 0) default).cost_rank = k0 + j := by
  intro rs
  induction rs with
  | nil => intro nds k0 _ _ j hj; cases hj
  | cons r rs ih =>
    intro nds k0 hnd hlt j hj
    cases j with
    | zero =>
      rw [assignRanks]
      have hnotin : r ∉ rs := (List.nodup_cons.mp hnd).1
      rw [show ((r :: rs).getD 0 0) = r from rfl,
        assignRanks_getD_not_mem rs (k0 + 1) _ r hnotin,
        getD_set_self nds r _ (hlt r (List.mem_cons_self r rs))]
      simp
    | succ j =>
      rw [assignRanks]
      have hlt' : ∀ x ∈ rs, x < (nds.set r { nds.getD r default with cost_rank := k0 }).length := by
        intro x hx
        rw [List.length_set]
        exact hlt x (List.mem_cons_of_mem r hx)
      have := ih (nds.set r { nds.getD r default with cost_rank := k0 }) (k0 + 1)
        (List.nodup_cons.mp hnd).2 hlt' j (by simpa using hj)
      rw [show ((r :: rs).getD (j + 1) 0) = rs.getD j 0 from rfl, this]
      omega

theorem assignRanks_cost_line :
    ∀ (rs : List Nat) (k : Nat) (nds : List NodeData) (i : Nat),
      ((assignRanks nds rs k).getD i default).cost = (nds.getD i default).cost ∧
      ((assignRanks nds rs k).getD i default).line_nr = (nds.getD i default).line_nr := by
  intro rs
  induction rs with
  | nil => intro k nds i; exact ⟨rfl, rfl⟩
  | cons r rs ih =>
    intro k nds i
    rw [assignRanks]
    obtain ⟨hc, hl⟩ := ih (k + 1) (nds.set r { nds.getD r default with cost_rank := k }) i
    rw [hc, hl]
    by_cases hri : r = i
    · subst hri
      by_cases hrlen : r < nds.length
      · rw [getD_set_self nds r _ hrlen]
        exact ⟨rfl, rfl⟩
      · rw [List.getD_eq_getElem?_getD, List.getElem?_set, if_pos rfl, if_neg hrlen,
          List.getD_eq_getElem?_getD]
        have : nds[r]? = none := List.getElem?_eq_none (Nat.le_of_not_lt hrlen)
        rw [this]
        exact ⟨rfl, rfl⟩
    · rw [getD_set_ne nds r i _ hri]
      exact ⟨rfl, rfl⟩

theorem costLeData_congr (a a' b b' : NodeData)
    (hca : a.cost = a'.cost) (hla : a.line_nr = a'.line_nr)
    (hcb : b.cost = b'.cost) (hlb : b.line_nr = b'.line_nr) :
    costLeData a b ↔ costLeData a' b' := by
  unfold costLeData
  rw [hca, hla, hcb, hlb]

theorem nodup_map_line (nds : List NodeData)
    (h : (nds.map (fun nd => nd.line_nr)).Nodup) :
    ∀ i, i < nds.length → ∀ j, j < nds.length → i ≠ j →
      (nds.getD i default).line_nr ≠ (nds.getD j default).line_nr := by
  have key : ∀ (ki kj : Fin (nds.map (fun nd => nd.line_nr)).length), ki < kj →
      (nds.map (fun nd => nd.line_nr)).get ki ≠ (nds.map (fun nd => nd.line_nr)).get kj :=
    List.pairwise_iff_get.mp h
  have hget : ∀ (k : Nat) (hk : k < nds.length),
      (nds.map (fun nd => nd.line_nr)).get ⟨k, by simpa using hk⟩ =
        (nds.getD k default).line_nr := by
    intro k hk
    rw [List.get_map]
    congr 1
    rw [List.getD_eq_getElem?_getD, List.getElem?_eq_getElem hk]
    rfl
  intro i hi j hj hne
  rcases Nat.lt_or_ge i j with hij | hij
  · have := key ⟨i, by simpa using hi⟩ ⟨j, by simpa using hj⟩ (by simpa using hij)
    rw [hget i hi, hget j hj] at this
    exact this
  · have hji : j < i := Nat.lt_of_le_of_ne hij (Ne.symm hne)
    have := key ⟨j, by simpa using hj⟩ ⟨i, by simpa using hi⟩ (by simpa using hji)
    rw [hget j hj, hget i hi] at this
    exact fun he => this he.symm

theorem add_node_lines_nodup (acc : List NodeData) (nd : NodeData)
    (h : (acc.map (fun x => x.line_nr)).Nodup) :
    ((add_node acc nd).map (fun x => x.line_nr)).Nodup := by
  rw [add_node_lines]
  split
  · exact h
  · next hany =>
    rw [List.nodup_append]
    refine ⟨h, List.nodup_singleton _, fun a ha hb => ?_⟩
    rcases List.mem_singleton.mp hb with rfl
    rcases List.mem_map.mp ha with ⟨x, hx, hxl⟩
    have hall : ∀ y ∈ acc, (y.line_nr == nd.line_nr) = false := by
      intro y hy
      cases hyl : (y.line_nr == nd.line_nr) with
      | false => rfl
      | true => exact absurd (List.any_eq_true.mpr ⟨y, hy, hyl⟩) hany
    have hx2 := hall x hx
    rw [hxl] at hx2
    simp at hx2

theorem computeNodes_lines_nodup (p : Z3Parser) :
    ∀ (deps : List Dependency) (acc : List NodeData),
      ((acc.map (fun x => x.line_nr)).Nodup) → ∀ nds,
      deps.foldlM (fun nodes dep =>
        match dep.to_ with
        | none => some nodes
        | some l =>
          match dep.to_iidx.bind (fun k => p.instantiations.get? k) with
          | none => none
          | some inst =>
            some (add_node nodes
              { line_nr := l, is_theory_inst := dep.quant_discovered, cost := inst.cost,
                inst_idx := dep.to_iidx, quant_idx := dep.quant, visible := true,
                child_count := 0, parent_count := 0, orig_graph_idx := 0,
                cost_rank := 0, min_depth := 0 })) acc = some nds →
      ((nds.map (fun x => x.line_nr)).Nodup) := by
  intro deps
  induction deps with
  | nil =>
    intro acc hnd nds h
    cases Option.some_inj.mp h
    exact hnd
  | cons dep deps ih =>
    intro acc hnd nds h
    rw [List.foldlM_cons] at h
    cases hto : dep.to_ with
    | none =>
      rw [hto] at h
      exact ih acc hnd nds h
    | some l =>
      rw [hto] at h
      cases hbind : dep.to_iidx.bind (fun k => p.instantiations.get? k) with
      | none =>
        rw [hbind] at h
        cases h
      | some inst =>
        rw [hbind] at h
        exact ih _ (add_node_lines_nodup acc _ hnd) nds h

end Old

/-- Raw graph construction establishes the well-formedness the amended C2
assumes: the cost-ranked index list is a sorted permutation of all node
indices, stored ranks are positions, and line numbers are pairwise
distinct. -/
theorem computeInstantiationGraph_WF (p : Old.Z3Parser) (g : Old.InstGraph)
    (h : Old.computeInstantiationGraph p = some g) : Old.WF g := by
  unfold Old.computeInstantiationGraph at h
  cases hcn : Old.computeNodes p with
  | none => rw [hcn] at h; cases h
  | some nds =>
    rw [hcn] at h
    cases Option.some_inj.mp h
    set E := Old.computeEdges p nds with hEdef
    set nodes1 := Old.withDepths (Old.withCounts nds E) E with hn1def
    set ranked := Old.sortIndices nodes1 with hrdef
    have hlen1 : nodes1.length = nds.length := by
      rw [hn1def]
      simp [Old.withDepths, Old.withCounts]
    have hlenfinal : (Old.assignRanks nodes1 ranked 0).length = nodes1.length :=
      Old.assignRanks_length ranked 0 nodes1
    have hperm0 : ranked.Perm (List.range nodes1.length) := by
      rw [hrdef]
      exact List.perm_insertionSort _ _
    have hmemr : ∀ i ∈ ranked, i < nodes1.length := by
      intro i hi
      rw [← List.mem_range]
      exact hperm0.mem_iff.mp hi
    have hndr : ranked.Nodup := hperm0.nodup_iff.mpr (List.nodup_range _)
    refine ⟨?_, ?_, ?_, ?_⟩
    · show ranked.Perm (List.range (Old.assignRanks nodes1 ranked 0).length)
      rw [hlenfinal]
      exact hperm0
    · intro k hk
      have hr := Old.assignRanks_rank ranked nodes1 0 hndr hmemr k hk
      simpa [Old.nodeAt] using hr
    · have hndlines : ((Old.assignRanks nodes1 ranked 0).map (fun nd => nd.line_nr)).Nodup := by
        rw [Old.assignRanks_lines, hn1def, Old.withDepths_lines, Old.withCounts_lines]
        exact Old.computeNodes_lines_nodup p p.dependencies [] (by simp) nds hcn
      intro i hi j hj hne
      exact Old.nodup_map_line _ hndlines i (by simpa using hi) j (by simpa using hj) hne
    · have hsorted0 : List.Pairwise
          (fun i j => Old.costLeData (nodes1.getD i default) (nodes1.getD j default)) ranked := by
        rw [hrdef]
        unfold Old.sortIndices
        haveI htot : IsTotal Nat
            (fun i j => Old.costLeData (nodes1.getD i default) (nodes1.getD j default)) := by
          constructor
          intro a b
          unfold Old.costLeData
          rcases lt_trichotomy (nodes1.getD a default).cost (nodes1.getD b default).cost with
            hlt | heq | hgt
          · right; exact Or.inl hlt
          · rcases Nat.le_total (nodes1.getD a default).line_nr
              (nodes1.getD b default).line_nr with hle | hle
            · left; exact Or.inr ⟨heq, hle⟩
            · right; exact Or.inr ⟨heq.symm, hle⟩
          · left; exact Or.inl hgt
        haveI htr : IsTrans Nat
            (fun i j => Old.costLeData (nodes1.getD i default) (nodes1.getD j default)) := by
          constructor
          intro a b c hab hbc
          unfold Old.costLeData at hab hbc ⊢
          rcases hab with hab | ⟨hab1, hab2⟩
          · rcases hbc with hbc | ⟨hbc1, hbc2⟩
            · exact Or.inl (lt_trans hbc hab)
            · rw [hbc1] at hab
              exact Or.inl hab
          · rcases hbc with hbc | ⟨hbc1, hbc2⟩
            · rw [← hab1] at hbc
              exact Or.inl hbc
            · exact Or.inr ⟨hab1.trans hbc1, Nat.le_trans hab2 hbc2⟩
        exact List.sorted_insertionSort _ _
      refine List.Pairwise.imp ?_ hsorted0
      intro a b hab
      have hca := Old.assignRanks_cost_line ranked 0 nodes1 a
      have hcb := Old.assignRanks_cost_line ranked 0 nodes1 b
      exact (Old.costLeData_congr _ _ _ _ hca.1 hca.2 hcb.1 hcb.2).mpr hab

/-- Witness for the amended C9: the truncated but self-consistent fact
store `c9wit`. -/
theorem C9_amended_witness :
    (∀ dep ∈ c9wit.dependencies, dep.to_.isSome = true →
      (dep.to_iidx.bind (fun k => c9wit.instantiations.get? k)).isSome = true) ∧
    (∃ g, Old.computeInstantiationGraph c9wit = some g ∧
      ((g.nodes.map (fun nd => nd.line_nr)).Nodup) ∧
      (∀ l, l ∈ g.nodes.map (fun nd => nd.line_nr) ↔
        ∃ dep ∈ c9wit.dependencies, dep.to_ = some l) ∧
      ∀ e ∈ g.edges, e.1 < g.nodes.length ∧ e.2 < g.nodes.length) :=
  ⟨by decide, C9_amended c9wit (by decide)⟩

end AxiomProfiler
